import Mathlib

/-!
Verification of the MIR rewrite passes of `noria-server/mir/src/rewrite.rs`.

The graph of MIR nodes is embedded as an arena: a list of nodes addressed by
stable integer identifiers, with edge lists holding identifiers (this is the
arena representation the specification itself recommends for the
shared-ownership, mutably-aliased node graph).  Pure recursive queries over
the graph (`has_column`, `check_materialized`, `check_reuse_for_identity`)
and the work-list passes recurse along ancestor chains of a graph that is
only acyclic by convention, so every recursive traversal takes explicit fuel;
a `none` / `fuelOut` result models a traversal that does not terminate (the
Rust code would recurse or loop forever).  Rust panics are modelled by
distinguished result constructors.
-/

set_option linter.unusedVariables false

namespace MirRewrite

/-- Boolean string-prefix test: `strStarts s p` is `name.starts_with(p)` of the
source, computed on the underlying character lists. -/
def strStarts (s p : String) : Bool := p.data.isPrefixOf s.data

/-- Boolean string-suffix test: `strEnds s p` is `name.ends_with(p)` of the
source, computed on the underlying character lists. -/
def strEnds (s p : String) : Bool := p.data.isSuffixOf s.data

/-- A MIR column: a name plus an optional table qualifier.  Equality is by
(name, qualifier), mirroring `Column`'s derived equality. -/
structure Column where
  name : String
  table : Option String
deriving DecidableEq

/-- The operator-kind taxonomy (`MirNodeType`).  `Reuse` holds the arena
identifier of its target node.  `Union` stands in for the remaining opaque
kinds of the closed source taxonomy (security unions among them); like every
kind outside the explicitly matched ones it falls into the catch-all arms of
the predicates below. -/
inductive MirNodeType where
  | Base
  | Aggregation
  | TopK
  | Join
  | Project
  | Filter
  | Identity (materialized : Bool)
  | Reuse (target : Nat)
  | Leaf
  | Union
deriving DecidableEq

/-- A MIR node (`MirNode`): name, schema version, ordered output columns,
operator kind, ordered ancestor and child identifier lists.

Modelled from the spec: the node structure itself lives in `node.rs`, which is
not part of the sources; per the specification a node carries a name (also a
role marker via prefixes/suffixes), a schema version, a mutable ordered
output-column list, the operator kind, and ordered ancestor/child edge lists.
`extraRef` models the operator-specific columns a node references beyond its
projected output (for example a filter's predicate column): the spec states
`referenced_columns` yields the columns a node projects plus such additional
columns. -/
structure MirNode where
  name : String
  fromVersion : Nat
  columns : List Column
  inner : MirNodeType
  ancestors : List Nat
  children : List Nat
  extraRef : List Column
deriving DecidableEq

/-- The arena of nodes: identifier `i` denotes `nodes[i]`. -/
structure Graph where
  nodes : List MirNode
deriving DecidableEq

namespace Graph

/-- Fetch the node stored at identifier `i`. -/
def get (g : Graph) (i : Nat) : Option MirNode := g.nodes[i]?

/-- Number of nodes in the arena; fresh nodes are appended at this index. -/
def size (g : Graph) : Nat := g.nodes.length

/-- Replace the node stored at identifier `i`. -/
def set (g : Graph) (i : Nat) (n : MirNode) : Graph := ⟨g.nodes.set i n⟩

/-- Append a fresh node; its identifier is the old `size`. -/
def push (g : Graph) (n : MirNode) : Graph := ⟨g.nodes ++ [n]⟩

end Graph

/-- The ancestor identifier list of node `i` (empty for a dangling id). -/
def ancOf (g : Graph) (i : Nat) : List Nat :=
  match g.get i with
  | some n => n.ancestors
  | none => []

/-- The child identifier list of node `i` (empty for a dangling id). -/
def childrenOf (g : Graph) (i : Nat) : List Nat :=
  match g.get i with
  | some n => n.children
  | none => []

/-- The output columns of node `i` (empty for a dangling id). -/
def colsOf (g : Graph) (i : Nat) : List Column :=
  match g.get i with
  | some n => n.columns
  | none => []

/-- The operator kind of node `i`. -/
def innerOf (g : Graph) (i : Nat) : Option MirNodeType :=
  match g.get i with
  | some n => some n.inner
  | none => none

/-- The name of node `i` (empty for a dangling id). -/
def nameOf (g : Graph) (i : Nat) : String :=
  match g.get i with
  | some n => n.name
  | none => ""

/-- Does the name of node `i` carry the materialized-identity marker
(`ends_with("_matid")` of `check_reuse_for_identity`)? -/
def matidName (g : Graph) (i : Nat) : Bool := strEnds (nameOf g i) "_matid"

/-- Modelled from the spec: `add_column` of `node.rs` (not in the sources)
appends a column to the node's ordered output-column list ("passes append to
it"). -/
def addColG (g : Graph) (i : Nat) (c : Column) : Graph :=
  match g.get i with
  | some n => g.set i { n with columns := n.columns ++ [c] }
  | none => g

/-- Modelled from the spec: `add_child` of `node.rs` appends one child edge
entry ("an edge removed/added from both endpoints' lists"). -/
def addChildG (g : Graph) (i : Nat) (c : Nat) : Graph :=
  match g.get i with
  | some n => g.set i { n with children := n.children ++ [c] }
  | none => g

/-- Modelled from the spec: `add_ancestor` of `node.rs` appends one ancestor
edge entry. -/
def addAncG (g : Graph) (i : Nat) (a : Nat) : Graph :=
  match g.get i with
  | some n => g.set i { n with ancestors := n.ancestors ++ [a] }
  | none => g

/-- Modelled from the spec: `remove_child` of `node.rs` detaches one child
edge occurrence (no effect when the edge is absent). -/
def removeChildG (g : Graph) (i : Nat) (c : Nat) : Graph :=
  match g.get i with
  | some n => g.set i { n with children := n.children.erase c }
  | none => g

/-- Modelled from the spec: `remove_ancestor` of `node.rs` detaches one
ancestor edge occurrence. -/
def removeAncG (g : Graph) (i : Nat) (a : Nat) : Graph :=
  match g.get i with
  | some n => g.set i { n with ancestors := n.ancestors.erase a }
  | none => g

/-- Modelled from the spec: `referenced_columns` of `node.rs` — the columns a
node needs: everything it projects into its output plus the
operator-specific extra columns (e.g. a filter's predicate column). -/
def referencedColumns (n : MirNode) : List Column := n.columns ++ n.extraRef

/-- `has_column(n, column)`: `n` emits the column, or some ancestor does,
recursively (rewrite.rs lines 7-18).  Fuel bounds the recursion depth; `none`
models the unbounded recursion the Rust function performs on a graph whose
ancestor relation is cyclic. -/
def hasColumnF (g : Graph) : Nat → Nat → Column → Option Bool
  | 0, _, _ => none
  | f + 1, i, c =>
    match g.get i with
    | none => none
    | some n =>
      if c ∈ n.columns then some true
      else
        n.ancestors.foldl
          (fun acc a =>
            match acc with
            | some true => some true
            | none => none
            | some false => hasColumnF g f a c)
          (some false)

/-- Result of `check_materialized`: a boolean, the panic the Rust code raises
when it indexes `ancestors[0]` of an ancestor-less pass-through node (a
checked precondition failure: Rust `Vec` indexing bounds-checks and panics,
it never touches memory out of bounds), or fuel exhaustion standing for
unbounded recursion. -/
inductive CMRes where
  | ok (b : Bool)
  | panicIdx
  | fuelOut
deriving DecidableEq

/-- `check_materialized` (rewrite.rs lines 69-91).  A security-boundary name
(prefix `"sp_"`) is unmaterialized outright; `Aggregation`, `Base`, `TopK`
and `Join` retain state; `Project` and `Filter` defer to their single first
ancestor; `Reuse` defers to its target; every other kind is unmaterialized. -/
def checkMatF (g : Graph) : Nat → Nat → CMRes
  | 0, _ => .fuelOut
  | f + 1, i =>
    match g.get i with
    | none => .panicIdx
    | some n =>
      if strStarts n.name "sp_" then .ok false
      else
        match n.inner with
        | .Aggregation | .Base | .TopK | .Join => .ok true
        | .Project | .Filter =>
          match n.ancestors with
          | [] => .panicIdx
          | a :: _ => checkMatF g f a
        | .Reuse t => checkMatF g f t
        | _ => .ok false

/-- `check_reuse_for_identity` (rewrite.rs lines 93-106): the first child whose
name ends in `"_matid"`, else recurse into a `Reuse` node's target, else
nothing.  `some (some c)` = found `c`, `some none` = completed without a find,
`none` = fuel ran out (unbounded `Reuse` chain). -/
def checkReuseF (g : Graph) : Nat → Nat → Option (Option Nat)
  | 0, _ => none
  | f + 1, i =>
    match g.get i with
    | none => none
    | some n =>
      match n.children.find? (fun c => matidName g c) with
      | some c => some (some c)
      | none =>
        match n.inner with
        | .Reuse t => checkReuseF g f t
        | _ => some none

/-- The table mapping handed to the passes: an association list keyed by
(column name, optional originating table), valued by the replacement table
name (the `HashMap<(String, Option<String>), String>` of the source). -/
def TableMapping : Type := List ((String × Option String) × String)

/-- `map.contains_key(&key)`. -/
def mapContains (m : TableMapping) (k : String × Option String) : Bool :=
  m.any (fun e => e.fst = k)

/-- `map.get(&key).cloned()`. -/
def mapGet (m : TableMapping) (k : String × Option String) : Option String :=
  match m.find? (fun e => e.fst = k) with
  | some e => some e.snd
  | none => none

/-- The needed columns of a node (rewrite.rs lines 194-204): its referenced
columns that are not already emitted by any immediate ancestor. -/
def neededColumns (g : Graph) (n : MirNode) : List Column :=
  (referencedColumns n).filter
    (fun c => ¬ n.ancestors.any (fun a => (colsOf g a).any (fun ac => ac = c)))

/-- The skip predicate of the secure branch of the column-pull pass
(rewrite.rs lines 215-234): a needed column whose (name, table) key is present
in the table mapping is the naming pass's responsibility and is skipped.  The
two source arms for a qualified and an unqualified column build the same key
from `(c.name, c.table)`. -/
def mapSkip (m : TableMapping) (c : Column) : Bool :=
  match c.table with
  | some t => mapContains m (c.name, some t)
  | none => mapContains m (c.name, none)

/-- One ancestor's inner loop of the column-pull pass, over the needed
columns, with the `found` accumulator (`skip` instantiates to the mapping
check in the secure branch and to `false` without a mapping).  A needed
column is pulled into ancestor `a` when it is not skipped, not already found,
and `has_column` holds; `none` models a diverging `has_column` call or the
`RefCell` double-borrow panic the Rust code would hit if a self-loop edge
made a node pull a column into itself. -/
def colLoop (skip : Column → Bool) (selfId a : Nat) :
    Graph → List Column → List Column → Option (Graph × List Column)
  | g, [], found => some (g, found)
  | g, c :: cs, found =>
    if skip c then colLoop skip selfId a g cs found
    else if c ∈ found then colLoop skip selfId a g cs found
    else
      match hasColumnF g (g.size + 1) a c with
      | none => none
      | some false => colLoop skip selfId a g cs found
      | some true =>
        if a = selfId then none
        else colLoop skip selfId a (addColG g a c) cs (found ++ [c])

/-- The per-node ancestor loop of the column-pull pass (rewrite.rs lines
209-254): root ancestors (empty ancestor list) are skipped entirely — neither
written to nor pushed — and every other ancestor is processed and then pushed
onto the work list (`pushes` accumulates the pushes in order). -/
def ancLoop (skip : Column → Bool) (selfId : Nat) (needed : List Column) :
    Graph → List Nat → List Column → List Nat → Option (Graph × List Nat)
  | g, [], _found, pushes => some (g, pushes)
  | g, a :: as, found, pushes =>
    match g.get a with
    | none => none
    | some an =>
      if an.ancestors.isEmpty then ancLoop skip selfId needed g as found pushes
      else
        match colLoop skip selfId a g needed found with
        | none => none
        | some (g', found') =>
          ancLoop skip selfId needed g' as found' (pushes ++ [a])

/-- One work-list step of the column-pull pass: compute the popped node's
needed columns, then run the ancestor loop of the branch selected by the
optional table mapping.  Returns the updated graph and the identifiers pushed
onto the work list. -/
def processNode (g : Graph) (m : Option TableMapping) (i : Nat) :
    Option (Graph × List Nat) :=
  match g.get i with
  | none => none
  | some n =>
    match m with
    | some mp => ancLoop (mapSkip mp) i (neededColumns g n) g n.ancestors [] []
    | none => ancLoop (fun _ => false) i (neededColumns g n) g n.ancestors [] []

/-- Result of `pull_required_base_columns`: the rewritten graph, the Rust
panic (carrying the graph at the moment of the abort), or a run that does not
complete within the fuel (divergence). -/
inductive PullRes where
  | ok (g : Graph)
  | panicked (msg : String) (g : Graph)
  | fuelOut
deriving DecidableEq

/-- The LIFO work-list loop of the column-pull pass (rewrite.rs lines
189-256); the head of the list is the top of the Rust `Vec` stack, so the
pushes of one step are reversed onto the front. -/
def pullLoop (m : Option TableMapping) : Nat → Graph → List Nat → PullRes
  | _, g, [] => .ok g
  | 0, _, _ :: _ => .fuelOut
  | f + 1, g, i :: rest =>
    match processNode g m i with
    | none => .fuelOut
    | some (g', ps) => pullLoop m f g' (ps.reverse ++ rest)

/-- `pull_required_base_columns` (rewrite.rs lines 174-257): panics — before
touching any node — when the secure flag is set and no table mapping was
supplied, and otherwise runs the work list seeded with the query's leaf. -/
def pullRequiredBaseColumns (g : Graph) (leaf : Nat) (m : Option TableMapping)
    (sec : Bool) (fuel : Nat) : PullRes :=
  if sec then
    match m with
    | some _ => pullLoop m fuel g [leaf]
    | none => .panicked "no table mapping computed, but in secure universe." g
  else pullLoop m fuel g [leaf]

/-- The classification loop over a security union's ancestors (rewrite.rs
lines 118-130): a `Reuse` ancestor whose target chain already owns a
materialized-identity child goes to `to_reuse` (with that child); otherwise an
unmaterialized ancestor goes to `to_rewrite`; a materialized ancestor is left
alone.  `none` models a diverging or panicking predicate call. -/
def classifyAnc (g : Graph) (fz : Nat) :
    List Nat → Option (List (Nat × Nat) × List Nat)
  | [] => some ([], [])
  | ar :: rest =>
    match g.get ar with
    | none => none
    | some arn =>
      match arn.inner with
      | .Reuse t =>
        match checkReuseF g fz t with
        | none => none
        | some (some e) =>
          match classifyAnc g fz rest with
          | some (ru, rw) => some ((ar, e) :: ru, rw)
          | none => none
        | some none =>
          match checkMatF g fz ar with
          | .ok true => classifyAnc g fz rest
          | .ok false =>
            match classifyAnc g fz rest with
            | some (ru, rw) => some (ru, ar :: rw)
            | none => none
          | _ => none
      | _ =>
        match checkMatF g fz ar with
        | .ok true => classifyAnc g fz rest
        | .ok false =>
          match classifyAnc g fz rest with
          | some (ru, rw) => some (ru, ar :: rw)
          | none => none
        | _ => none

/-- One `to_reuse` splice (rewrite.rs lines 132-143): detach the `Reuse`
ancestor `ar` from the union `u`, build a fresh `Reuse` node pointing at the
existing identity `cr`, and attach `ar ↔ new ↔ u`.

Modelled from the spec: `MirNode::reuse` of `node.rs` builds a node aliasing
its target — same name and output columns, `Reuse` kind, no edges of its own
(all four edge attachments are explicit in rewrite.rs). -/
def spliceReuse (g : Graph) (u v : Nat) (arcr : Nat × Nat) : Graph :=
  let ar := arcr.fst
  let cr := arcr.snd
  let g1 := removeChildG g ar u
  let g2 := removeAncG g1 u ar
  let nid := g2.size
  let g3 := g2.push
    { name := nameOf g2 cr, fromVersion := v, columns := colsOf g2 cr,
      inner := .Reuse cr, ancestors := [], children := [], extraRef := [] }
  let g4 := addChildG g3 ar nid
  let g5 := addAncG g4 nid ar
  let g6 := addChildG g5 nid u
  addAncG g6 u nid

/-- The `to_reuse` drain loop. -/
def reuseDrain (u v : Nat) : Graph → List (Nat × Nat) → Graph
  | g, [] => g
  | g, e :: rest => reuseDrain u v (spliceReuse g u v e) rest

/-- One `to_rewrite` splice (rewrite.rs lines 145-165): detach `ar` from the
union `u`, create a materialized identity named `"<ar>_matid"` copying `ar`'s
columns with ancestor list `[ar]` and child list `[u]`, and, when `ar` is a
`Reuse`, additionally register the fresh node as a child of `ar`'s target
(one-sided).  Finally the union gains the fresh node as an ancestor.

Modelled from the spec: `MirNode::new` of `node.rs` registers the fresh node
as a child of each node in its ancestor argument (the splice "attach
ancestor↔new-identity" is two-sided per the spec), and does not register
itself as an ancestor of its children — rewrite.rs performs that side
explicitly.  `none` models the `RefCell` double-borrow panic on a degenerate
`Reuse` node targeting itself. -/
def spliceRewrite (g : Graph) (u v ar : Nat) : Option Graph :=
  let g1 := removeChildG g ar u
  let g2 := removeAncG g1 u ar
  let nid := g2.size
  let g3 := g2.push
    { name := nameOf g2 ar ++ "_matid", fromVersion := v,
      columns := colsOf g2 ar, inner := .Identity true,
      ancestors := [ar], children := [u], extraRef := [] }
  let g4 := addChildG g3 ar nid
  match innerOf g2 ar with
  | some (.Reuse t) =>
    if t = ar then none else some (addAncG (addChildG g4 t nid) u nid)
  | some _ => some (addAncG g4 u nid)
  | none => none

/-- The `to_rewrite` drain loop. -/
def rewriteDrain (u v : Nat) : Graph → List Nat → Option Graph
  | g, [] => some g
  | g, ar :: rest =>
    match spliceRewrite g u v ar with
    | some g' => rewriteDrain u v g' rest
    | none => none

/-- Processing of one security-union node by
`force_materialization_above_secunion` (rewrite.rs lines 114-165): classify
the ancestors against the pre-splice graph, then drain `to_reuse` and then
`to_rewrite`. -/
def processUnion (g : Graph) (v u : Nat) : Option Graph :=
  match classifyAnc g (g.size + 1) (ancOf g u) with
  | none => none
  | some (ru, rw) => rewriteDrain u v (reuseDrain u v g ru) rw

/-- The work-list loop of `force_materialization_above_secunion` (rewrite.rs
lines 108-172): pop, process the node if its name carries the security-union
marker `"spu_"`, then push its (possibly already spliced) ancestors. -/
def forceMatLoop (v : Nat) : Nat → Graph → List Nat → Option Graph
  | _, g, [] => some g
  | 0, _, _ :: _ => none
  | f + 1, g, i :: rest =>
    match g.get i with
    | none => none
    | some n =>
      if strStarts n.name "spu_" then
        match processUnion g v i with
        | none => none
        | some g' => forceMatLoop v f g' ((ancOf g' i).reverse ++ rest)
      else forceMatLoop v f g ((ancOf g i).reverse ++ rest)

/-- `force_materialization_above_secunion`, seeded with the query's leaf. -/
def forceMaterializationAboveSecunion (g : Graph) (leaf v fuel : Nat) :
    Option Graph :=
  forceMatLoop v fuel g [leaf]

/-- The upward search for the universe's base node (rewrite.rs lines 30-44):
pop until a node named `baseName` appears; when the work list empties without
a find, the leaf — the initial value of `base_node` — is the fallback. -/
def findBase (g : Graph) (baseName : String) (fallback : Nat) :
    Nat → List Nat → Option Nat
  | _, [] => some fallback
  | 0, _ :: _ => none
  | f + 1, i :: rest =>
    match g.get i with
    | none => none
    | some n =>
      if n.name = baseName then some i
      else findBase g baseName fallback f ((ancOf g i).reverse ++ rest)

/-- The downward rewrite loop of `make_universe_naming_consistent`
(rewrite.rs lines 49-66): for every column of every descendant, compute the
mapped replacement table name — and discard it, writing the column back
unchanged, exactly as the source does. -/
def namingLoop (mp : TableMapping) : Nat → Graph → List Nat → Option Graph
  | _, g, [] => some g
  | 0, _, _ :: _ => none
  | f + 1, g, i :: rest =>
    match g.get i with
    | none => none
    | some n =>
      let newCols := n.columns.map (fun c =>
        let _res :=
          match c.table with
          | some t => mapGet mp (c.name, some t)
          | none => (none : Option String)
        c)
      let g' := g.set i { n with columns := newCols }
      namingLoop mp f g' ((childrenOf g' i).reverse ++ rest)

/-- `make_universe_naming_consistent` (rewrite.rs lines 20-67): find the
universe's base node starting from the leaf, then walk all its descendants
computing (and discarding) replacement table names. -/
def makeUniverseNamingConsistent (g : Graph) (leaf : Nat) (mp : TableMapping)
    (baseName : String) (fuel : Nat) : Option Graph :=
  match findBase g baseName leaf fuel [leaf] with
  | some b => namingLoop mp fuel g [b]
  | none => none

/-- The skip function the two branches of the column-pull pass use: the
mapping check in the secure branch, constantly false without a mapping. -/
def skipOf (m : Option TableMapping) : Column → Bool :=
  match m with
  | some mp => mapSkip mp
  | none => fun _ => false

/-- The identifiers a completed column-pull step pushes onto the work list:
the node's ancestors with the roots (empty ancestor list) dropped. -/
def pushList (g : Graph) (i : Nat) : List Nat :=
  (ancOf g i).filter (fun a => !(ancOf g a).isEmpty)

/-- The referenced columns of the node at identifier `i`. -/
def referencedOf (g : Graph) (i : Nat) : List Column :=
  match g.get i with
  | some n => referencedColumns n
  | none => []

/-- Total number of column entries in the arena; every performed column
addition strictly increases it. -/
def totalCols (g : Graph) : Nat :=
  (g.nodes.map (fun n => n.columns.length)).sum

/-- `g'` extends `g`: same arena size and every node unchanged except that
its output-column list may have grown at the tail.  This is the shape of the
column-pull pass's effect. -/
def Extends (g g' : Graph) : Prop :=
  g.size = g'.size ∧
    ∀ j n, g.get j = some n →
      ∃ l, g'.get j = some { n with columns := n.columns ++ l }

/-- Propositional column reachability: the column closure `has_column`
searches — `c` sits on node `i` or on some transitive ancestor. -/
inductive HasColP (g : Graph) : Nat → Column → Prop where
  | self (i : Nat) (c : Column) : c ∈ colsOf g i → HasColP g i c
  | up (i a : Nat) (c : Column) :
      a ∈ ancOf g i → HasColP g a c → HasColP g i c

/-- A chain of column additions each justified by `HasColP` in the graph it
is applied to — the only kind of mutation the column-pull pass performs. -/
inductive JustExt (g : Graph) : Graph → Prop where
  | refl : JustExt g g
  | step (g' : Graph) (a : Nat) (c : Column) :
      JustExt g g' → HasColP g' a c → JustExt g (addColG g' a c)

/-- `AncReach g q n`: node `n` is reachable from `q` along ancestor edges
(reflexively); this is the set of nodes a work list containing `q` can still
process. -/
inductive AncReach (g : Graph) : Nat → Nat → Prop where
  | refl (i : Nat) : AncReach g i i
  | head (i a j : Nat) : a ∈ ancOf g i → AncReach g a j → AncReach g i j

/-- A node on which one more column-pull step is a no-op: processing it
returns the graph unchanged together with the standard pushes. -/
def stableNode (m : Option TableMapping) (g : Graph) (i : Nat) : Prop :=
  processNode g m i = some (g, pushList g i)

/-- The needed columns of the node at identifier `i`. -/
def neededOf (g : Graph) (i : Nat) : List Column :=
  match g.get i with
  | some n => neededColumns g n
  | none => []

/-- The semantic content of per-node stability: every needed, unskipped
column answers `has_column = false` on every non-root immediate ancestor, so
one more column-pull step performs no write. -/
def StableCond (m : Option TableMapping) (g : Graph) (i : Nat) : Prop :=
  ∀ a ∈ ancOf g i, (ancOf g a).isEmpty = false →
    ∀ c ∈ neededOf g i, skipOf m c = false →
      hasColumnF g (g.size + 1) a c = some false

/-- Recursive rendering of the ancestor loop inside `has_column`, used to
reason about the `foldl` in `hasColumnF`. -/
def hcolAux (g : Graph) (f : Nat) (c : Column) : List Nat → Option Bool
  | [] => some false
  | a :: as =>
    match hasColumnF g f a c with
    | some true => some true
    | none => none
    | some false => hcolAux g f c as

/-- Boolean well-formedness of the arena: every ancestor, child and `Reuse`
target identifier is in bounds. -/
def closedB (g : Graph) : Bool :=
  g.nodes.all (fun n =>
    n.ancestors.all (fun a => a < g.size) &&
    n.children.all (fun c => c < g.size) &&
    (match n.inner with
     | .Reuse t => t < g.size
     | _ => true))

/-- Edge symmetry, counted: the number of child entries `j` on node `i`
equals the number of ancestor entries `i` on node `j`, for all pairs in the
arena. -/
def symB (g : Graph) : Bool :=
  (List.range g.size).all (fun i =>
    (List.range g.size).all (fun j =>
      (childrenOf g i).count j = (ancOf g j).count i))

/-- Is the node a `Reuse` whose target carries the materialized-identity
name marker? -/
def isReuseToMatid (g : Graph) (a : Nat) : Bool :=
  match innerOf g a with
  | some (.Reuse t) => matidName g t
  | _ => false

/-- Is the node a `Reuse` node at all (any target)? -/
def isReuseB (g : Graph) (a : Nat) : Bool :=
  match innerOf g a with
  | some (.Reuse _) => true
  | _ => false

/-- An immediate ancestor of a security union in the state the
materialization-insertion pass promises: materialized per the predicate, or a
materialized identity carrying the `_matid` name marker, or a `Reuse` node
whose target carries the marker. -/
def Compliant (g : Graph) (a : Nat) : Prop :=
  checkMatF g (g.size + 1) a = .ok true
  ∨ (innerOf g a = some (.Identity true) ∧ matidName g a = true)
  ∨ isReuseToMatid g a = true

instance decCompliant (g : Graph) (a : Nat) : Decidable (Compliant g a) := by
  unfold Compliant
  infer_instance

/-- The detection value steering the classification of one union ancestor:
`some e` when the ancestor is a `Reuse` node whose target chain owns the
materialized-identity child `e` (the `to_reuse` case), `none` otherwise. -/
def reuseEntry (g : Graph) (fz : Nat) (ar : Nat) : Option Nat :=
  match innerOf g ar with
  | some (.Reuse t) =>
    match checkReuseF g fz t with
    | some (some e) => some e
    | _ => none
  | _ => none

/-- Does the classification send this ancestor to `to_rewrite`?  Exactly
when reuse-detection fails and `check_materialized` answers false. -/
def rewB (g : Graph) (fz : Nat) (ar : Nat) : Bool :=
  decide (reuseEntry g fz ar = none) && decide (checkMatF g fz ar = .ok false)

/-- Propositional well-formedness of the arena: every ancestor, child and
`Reuse` target identifier is in bounds. -/
def ClosedP (g : Graph) : Prop :=
  ∀ j n, g.get j = some n →
    (∀ a ∈ n.ancestors, a < g.size)
    ∧ (∀ c ∈ n.children, c < g.size)
    ∧ (∀ t, n.inner = .Reuse t → t < g.size)

/-- Counted edge symmetry, over all identifiers. -/
def SymM (g : Graph) : Prop :=
  ∀ i j, (childrenOf g i).count j = (ancOf g j).count i

/-- The `to_rewrite` list the classification loop of one union-processing
step produces (empty when the loop aborts). -/
def classifRW (g : Graph) (u : Nat) : List Nat :=
  match classifyAnc g (g.size + 1) (ancOf g u) with
  | some (_, rw) => rw
  | none => []

/-- A plain unqualified column named `a`. -/
def colA : Column := { name := "a", table := none }

/-- A plain unqualified column named `b`. -/
def colB : Column := { name := "b", table := none }

/-- Three-node chain `leaf "q" ← union "spu_1" ← unmaterialized "x"`: the
minimal input on which repeated materialization-insertion duplicates identity
nodes. -/
def secuDupGraph : Graph := ⟨[
  { name := "q", fromVersion := 0, columns := [], inner := .Leaf,
    ancestors := [1], children := [], extraRef := [] },
  { name := "spu_1", fromVersion := 0, columns := [], inner := .Union,
    ancestors := [2], children := [0], extraRef := [] },
  { name := "x", fromVersion := 0, columns := [], inner := .Identity false,
    ancestors := [], children := [1], extraRef := [] }]⟩

/-- The graph after one materialization-insertion run on `secuDupGraph`. -/
def secuDupOnce : Graph :=
  match forceMaterializationAboveSecunion secuDupGraph 0 0 20 with
  | some g => g
  | none => secuDupGraph

/-- The graph after a second materialization-insertion run. -/
def secuDupTwice : Graph :=
  match forceMaterializationAboveSecunion secuDupOnce 0 0 20 with
  | some g => g
  | none => secuDupOnce

/-- The record stored at identifier 3 of `secuDupOnce`: the identity node the
pass inserted. -/
def secuDupMatid : MirNode :=
  { name := "x_matid", fromVersion := 0, columns := [],
    inner := .Identity true, ancestors := [2], children := [1],
    extraRef := [] }

/-- Counterexample input for the global materialization-coverage claim:
`leaf "q" ← union "spu_1" ← Project named "spu_2" ← Reuse "r" of base "t"`,
where the base also owns a child named `"c_matid"` of `Leaf` kind.  The
union-named `Project` is left alone (its check-path reaches the base), but is
spliced onto the adversarially named `"c_matid"` node when it is itself
processed as a union, which flips its own `check_materialized` status. -/
def covGraph : Graph := ⟨[
  { name := "q", fromVersion := 0, columns := [], inner := .Leaf,
    ancestors := [1], children := [], extraRef := [] },
  { name := "spu_1", fromVersion := 0, columns := [], inner := .Union,
    ancestors := [2], children := [0], extraRef := [] },
  { name := "spu_2", fromVersion := 0, columns := [], inner := .Project,
    ancestors := [3], children := [1], extraRef := [] },
  { name := "r", fromVersion := 0, columns := [], inner := .Reuse 4,
    ancestors := [4], children := [2], extraRef := [] },
  { name := "t", fromVersion := 0, columns := [], inner := .Base,
    ancestors := [], children := [3, 5], extraRef := [] },
  { name := "c_matid", fromVersion := 0, columns := [], inner := .Leaf,
    ancestors := [4], children := [], extraRef := [] }]⟩

/-- The graph after running materialization-insertion on `covGraph`. -/
def covOut : Graph :=
  match forceMaterializationAboveSecunion covGraph 0 0 30 with
  | some g => g
  | none => covGraph

/-- Counterexample input for the edge-symmetry claim: `leaf "q" ← union
"spu_1" ← Reuse "r" of unmaterialized "t"`; splicing an identity above the
`Reuse` ancestor links the identity into the target's child list
one-sidedly. -/
def symGraph : Graph := ⟨[
  { name := "q", fromVersion := 0, columns := [], inner := .Leaf,
    ancestors := [1], children := [], extraRef := [] },
  { name := "spu_1", fromVersion := 0, columns := [], inner := .Union,
    ancestors := [2], children := [0], extraRef := [] },
  { name := "r", fromVersion := 0, columns := [], inner := .Reuse 3,
    ancestors := [3], children := [1], extraRef := [] },
  { name := "t", fromVersion := 0, columns := [], inner := .Identity false,
    ancestors := [], children := [2], extraRef := [] }]⟩

/-- The graph after running materialization-insertion on `symGraph`. -/
def symOut : Graph :=
  match forceMaterializationAboveSecunion symGraph 0 0 30 with
  | some g => g
  | none => symGraph

/-- Counterexample input for the column-availability claim: filter `"f"`
references the ghost column `b` that appears nowhere in the graph. -/
def ghostGraph : Graph := ⟨[
  { name := "q", fromVersion := 0, columns := [colA], inner := .Leaf,
    ancestors := [1], children := [], extraRef := [] },
  { name := "f", fromVersion := 0, columns := [colA], inner := .Filter,
    ancestors := [2], children := [0], extraRef := [colB] },
  { name := "t", fromVersion := 0, columns := [colA], inner := .Base,
    ancestors := [], children := [1], extraRef := [] }]⟩

/-- The graph after running the column-pull pass on `ghostGraph`. -/
def ghostOut : Graph :=
  match pullRequiredBaseColumns ghostGraph 0 none false 20 with
  | .ok g => g
  | _ => ghostGraph

/-- The availability property of the column-availability claim: every column
referenced by any node is in that node's own output columns or `has_column`
holds for it on some immediate ancestor. -/
def ColumnsAvailable (g : Graph) : Prop :=
  ∀ i, i < g.size → ∀ c ∈ referencedOf g i,
    c ∈ colsOf g i ∨
      ∃ a ∈ ancOf g i, hasColumnF g (g.size + 1) a c = some true

instance decColumnsAvailable (g : Graph) : Decidable (ColumnsAvailable g) := by
  unfold ColumnsAvailable
  infer_instance

/-- Chain `base "t" [a,b] ← project "p" [a] ← filter "f" [a], referencing b ←
leaf "q" [a]`: the column-pull pass pulls `b` into the projection. -/
def pullChainGraph : Graph := ⟨[
  { name := "q", fromVersion := 0, columns := [colA], inner := .Leaf,
    ancestors := [1], children := [], extraRef := [] },
  { name := "f", fromVersion := 0, columns := [colA], inner := .Filter,
    ancestors := [2], children := [0], extraRef := [colB] },
  { name := "p", fromVersion := 0, columns := [colA], inner := .Project,
    ancestors := [3], children := [1], extraRef := [] },
  { name := "t", fromVersion := 0, columns := [colA, colB], inner := .Base,
    ancestors := [], children := [2], extraRef := [] }]⟩

/-- The graph after one column-pull run on `pullChainGraph`. -/
def pullChainOnce : Graph :=
  match pullRequiredBaseColumns pullChainGraph 0 none false 20 with
  | .ok g => g
  | _ => pullChainGraph

/-- A one-node arena holding a base node, used to instantiate the
`check_materialized` case analysis. -/
def baseOnlyGraph : Graph := ⟨[
  { name := "t", fromVersion := 0, columns := [], inner := .Base,
    ancestors := [], children := [], extraRef := [] }]⟩

/-- The record stored in `baseOnlyGraph`. -/
def baseOnlyNode : MirNode :=
  { name := "t", fromVersion := 0, columns := [], inner := .Base,
    ancestors := [], children := [], extraRef := [] }

/-- A one-node arena holding an ancestor-less projection, the input on which
`check_materialized` hits its indexing panic. -/
def orphanProjGraph : Graph := ⟨[
  { name := "p", fromVersion := 0, columns := [], inner := .Project,
    ancestors := [], children := [], extraRef := [] }]⟩

/-- The record stored in `orphanProjGraph`. -/
def orphanProjNode : MirNode :=
  { name := "p", fromVersion := 0, columns := [], inner := .Project,
    ancestors := [], children := [], extraRef := [] }

/-- A two-node chain with a qualified column, used to run the naming pass:
`base "t" ← leaf "q"`, the leaf carrying column `t.a`. -/
def namingGraph : Graph := ⟨[
  { name := "q", fromVersion := 0,
    columns := [{ name := "a", table := some "t" }], inner := .Leaf,
    ancestors := [1], children := [], extraRef := [] },
  { name := "t", fromVersion := 0,
    columns := [{ name := "a", table := some "t" }], inner := .Base,
    ancestors := [], children := [0], extraRef := [] }]⟩

/-- A mapping that renames `("a", t)` to table `"t_u1"`; the naming pass
looks it up and discards the result. -/
def namingMap : TableMapping := [(("a", some "t"), "t_u1")]

/-- The graph produced by one union-processing step on `secuDupGraph`. -/
def puWitnessOut : Graph :=
  match processUnion secuDupGraph 0 1 with
  | some g => g
  | none => secuDupGraph

theorem list_set_self {α : Type} :
    ∀ (l : List α) (i : Nat) (x : α), l[i]? = some x → l.set i x = l := by
  intro l
  induction l with
  | nil => intro i x h; simp at h
  | cons a t ih =>
    intro i x h
    cases i with
    | zero =>
      simp only [List.getElem?_cons_zero, Option.some.injEq] at h
      simp [List.set, h]
    | succ j =>
      simp only [List.getElem?_cons_succ] at h
      simp [List.set, ih j x h]

theorem graph_set_self (g : Graph) (i : Nat) (n : MirNode)
    (h : g.get i = some n) : g.set i n = g := by
  cases g with
  | mk nodes =>
    show Graph.mk (nodes.set i n) = Graph.mk nodes
    rw [list_set_self nodes i n h]

theorem pullLoop_no_panic (m : Option TableMapping) :
    ∀ (f : Nat) (g : Graph) (Q : List Nat) (msg : String) (gp : Graph),
      pullLoop m f g Q ≠ .panicked msg gp := by
  intro f
  induction f with
  | zero =>
    intro g Q msg gp
    cases Q <;> simp [pullLoop]
  | succ f ih =>
    intro g Q msg gp
    cases Q with
    | nil => simp [pullLoop]
    | cons i rest =>
      simp only [pullLoop]
      cases hp : processNode g m i with
      | none => simp
      | some p => exact ih p.1 (p.2.reverse ++ rest) msg gp

theorem namingLoop_id (mp : TableMapping) :
    ∀ (f : Nat) (g : Graph) (Q : List Nat) (g' : Graph),
      namingLoop mp f g Q = some g' → g' = g := by
  intro f
  induction f with
  | zero =>
    intro g Q g' h
    cases Q with
    | nil => simp [namingLoop] at h; exact h.symm
    | cons i rest => simp [namingLoop] at h
  | succ f ih =>
    intro g Q g' h
    cases Q with
    | nil => simp [namingLoop] at h; exact h.symm
    | cons i rest =>
      simp only [namingLoop] at h
      cases hg : g.get i with
      | none => rw [hg] at h; exact absurd h (by simp)
      | some n =>
        rw [hg] at h
        have hmap : n.columns.map (fun c =>
            let _res :=
              match c.table with
              | some t => mapGet mp (c.name, some t)
              | none => (none : Option String)
            c) = n.columns := List.map_id n.columns
        simp only [hmap] at h
        have hset : g.set i { n with columns := n.columns } = g :=
          graph_set_self g i n hg
        rw [hset] at h
        exact ih g _ g' h

/-- C5: `check_materialized` returns false outright on a security-boundary
(`"sp_"`) name; otherwise it returns true for `Aggregation`, `Base`, `TopK`
and `Join`, recurses into the single first ancestor for `Project` and
`Filter`, recurses into the target for `Reuse`, and returns false for every
other operator kind (`Identity`, `Leaf`, and the opaque kinds). -/
theorem checkMaterialized_cases (g : Graph) (f i : Nat) (n : MirNode)
    (h : g.get i = some n) :
    (strStarts n.name "sp_" = true → checkMatF g (f + 1) i = .ok false)
    ∧ (strStarts n.name "sp_" = false →
        (n.inner = .Aggregation → checkMatF g (f + 1) i = .ok true)
        ∧ (n.inner = .Base → checkMatF g (f + 1) i = .ok true)
        ∧ (n.inner = .TopK → checkMatF g (f + 1) i = .ok true)
        ∧ (n.inner = .Join → checkMatF g (f + 1) i = .ok true)
        ∧ (∀ a as, n.ancestors = a :: as →
            (n.inner = .Project ∨ n.inner = .Filter) →
            checkMatF g (f + 1) i = checkMatF g f a)
        ∧ (∀ t, n.inner = .Reuse t → checkMatF g (f + 1) i = checkMatF g f t)
        ∧ (∀ b, n.inner = .Identity b → checkMatF g (f + 1) i = .ok false)
        ∧ (n.inner = .Leaf → checkMatF g (f + 1) i = .ok false)
        ∧ (n.inner = .Union → checkMatF g (f + 1) i = .ok false)) := by
  constructor
  · intro hsp
    simp [checkMatF, h, hsp]
  · intro hsp
    refine ⟨?_, ?_, ?_, ?_, ?_, ?_, ?_, ?_, ?_⟩
    · intro hin; simp [checkMatF, h, hsp, hin]
    · intro hin; simp [checkMatF, h, hsp, hin]
    · intro hin; simp [checkMatF, h, hsp, hin]
    · intro hin; simp [checkMatF, h, hsp, hin]
    · intro a as hanc hpf
      cases hpf with
      | inl hp => simp [checkMatF, h, hsp, hp, hanc]
      | inr hp => simp [checkMatF, h, hsp, hp, hanc]
    · intro t hin; simp [checkMatF, h, hsp, hin]
    · intro b hin; simp [checkMatF, h, hsp, hin]
    · intro hin; simp [checkMatF, h, hsp, hin]
    · intro hin; simp [checkMatF, h, hsp, hin]

/-- Witness for the `check_materialized` case analysis, at the one-node base
arena. -/
theorem checkMaterialized_cases_witness :
    baseOnlyGraph.get 0 = some baseOnlyNode
    ∧ ((strStarts baseOnlyNode.name "sp_" = true →
          checkMatF baseOnlyGraph (3 + 1) 0 = .ok false)
      ∧ (strStarts baseOnlyNode.name "sp_" = false →
          (baseOnlyNode.inner = .Aggregation →
            checkMatF baseOnlyGraph (3 + 1) 0 = .ok true)
          ∧ (baseOnlyNode.inner = .Base →
              checkMatF baseOnlyGraph (3 + 1) 0 = .ok true)
          ∧ (baseOnlyNode.inner = .TopK →
              checkMatF baseOnlyGraph (3 + 1) 0 = .ok true)
          ∧ (baseOnlyNode.inner = .Join →
              checkMatF baseOnlyGraph (3 + 1) 0 = .ok true)
          ∧ (∀ a as, baseOnlyNode.ancestors = a :: as →
              (baseOnlyNode.inner = .Project ∨ baseOnlyNode.inner = .Filter) →
              checkMatF baseOnlyGraph (3 + 1) 0 = checkMatF baseOnlyGraph 3 a)
          ∧ (∀ t, baseOnlyNode.inner = .Reuse t →
              checkMatF baseOnlyGraph (3 + 1) 0 = checkMatF baseOnlyGraph 3 t)
          ∧ (∀ b, baseOnlyNode.inner = .Identity b →
              checkMatF baseOnlyGraph (3 + 1) 0 = .ok false)
          ∧ (baseOnlyNode.inner = .Leaf →
              checkMatF baseOnlyGraph (3 + 1) 0 = .ok false)
          ∧ (baseOnlyNode.inner = .Union →
              checkMatF baseOnlyGraph (3 + 1) 0 = .ok false))) :=
  ⟨rfl, checkMaterialized_cases baseOnlyGraph 3 0 baseOnlyNode rfl⟩

/-- C9: on a `Project` or `Filter` node with an empty ancestor list,
`check_materialized` fails with the checked indexing panic — a reported
precondition failure (Rust `Vec` indexing bounds-checks before any memory
access), modelled by the distinguished `panicIdx` result. -/
theorem checkMaterialized_orphan_panics (g : Graph) (f i : Nat) (n : MirNode)
    (h : g.get i = some n) (hsp : strStarts n.name "sp_" = false)
    (hpf : n.inner = .Project ∨ n.inner = .Filter)
    (hanc : n.ancestors = []) : checkMatF g (f + 1) i = .panicIdx := by
  cases hpf with
  | inl hp => simp [checkMatF, h, hsp, hp, hanc]
  | inr hp => simp [checkMatF, h, hsp, hp, hanc]

/-- Witness: the ancestor-less projection arena hits the indexing panic. -/
theorem checkMaterialized_orphan_panics_witness :
    (orphanProjGraph.get 0 = some orphanProjNode
      ∧ strStarts orphanProjNode.name "sp_" = false
      ∧ (orphanProjNode.inner = .Project ∨ orphanProjNode.inner = .Filter)
      ∧ orphanProjNode.ancestors = [])
    ∧ checkMatF orphanProjGraph (2 + 1) 0 = .panicIdx :=
  ⟨⟨rfl, by decide, Or.inl rfl, rfl⟩,
    checkMaterialized_orphan_panics orphanProjGraph 2 0 orphanProjNode rfl
      (by decide) (Or.inl rfl) rfl⟩

/-- C10: `check_materialized` classifies every `Identity` node without the
security-boundary prefix as unmaterialized, regardless of its materialized
flag — in particular the `Identity { materialized: true }` nodes the
materialization-insertion pass itself splices in. -/
theorem checkMaterialized_identity_false (g : Graph) (f i : Nat)
    (n : MirNode) (b : Bool) (h : g.get i = some n)
    (hb : n.inner = .Identity b) (hsp : strStarts n.name "sp_" = false) :
    checkMatF g (f + 1) i = .ok false := by
  simp [checkMatF, h, hsp, hb]

/-- Witness: the very identity node inserted by the pass on `secuDupGraph`
(`"x_matid"`, materialized flag true) is classified as unmaterialized. -/
theorem checkMaterialized_identity_false_witness :
    (secuDupOnce.get 3 = some secuDupMatid
      ∧ secuDupMatid.inner = .Identity true
      ∧ strStarts secuDupMatid.name "sp_" = false)
    ∧ checkMatF secuDupOnce (4 + 1) 3 = .ok false :=
  ⟨⟨by decide, rfl, by decide⟩,
    checkMaterialized_identity_false secuDupOnce 4 3 secuDupMatid true
      (by decide) rfl (by decide)⟩

/-- C2 (code bug): running the materialization-insertion pass twice on the
three-node chain `leaf ← "spu_1" ← "x"` does not reuse the identity node the
first run inserted.  The first run splices `"x_matid"` (a materialized
identity) between `"x"` and the union; the second run classifies that node
as unmaterialized (`check_materialized` has no arm for `Identity`) and, since
it is not a `Reuse` node, the reuse-detection path never fires — so a second
identity node `"x_matid_matid"` is spliced above the same ancestor `"x"` for
the same union. -/
theorem secunion_double_run_duplicates :
    forceMaterializationAboveSecunion secuDupGraph 0 0 20 = some secuDupOnce
    ∧ secuDupOnce.size = 4
    ∧ nameOf secuDupOnce 3 = "x_matid"
    ∧ innerOf secuDupOnce 3 = some (.Identity true)
    ∧ ancOf secuDupOnce 1 = [3]
    ∧ ancOf secuDupOnce 3 = [2]
    ∧ forceMaterializationAboveSecunion secuDupOnce 0 0 20 = some secuDupTwice
    ∧ secuDupTwice.size = 5
    ∧ nameOf secuDupTwice 4 = "x_matid_matid"
    ∧ innerOf secuDupTwice 4 = some (.Identity true)
    ∧ ancOf secuDupTwice 1 = [4]
    ∧ ancOf secuDupTwice 4 = [3]
    ∧ ancOf secuDupTwice 3 = [2]
    ∧ checkMatF secuDupOnce (secuDupOnce.size + 1) 3 = .ok false := by
  decide

/-- C7: the column-pull pass aborts with a panic exactly when the secure
flag is set and no table mapping is supplied; the panic precedes the work
loop, carries the graph untouched, and its message names the violated
precondition. -/
theorem pull_panics_iff (g : Graph) (leaf : Nat) (m : Option TableMapping)
    (sec : Bool) (fuel : Nat) (msg : String) (gp : Graph) :
    pullRequiredBaseColumns g leaf m sec fuel = .panicked msg gp ↔
      (sec = true ∧ m = none
        ∧ msg = "no table mapping computed, but in secure universe."
        ∧ gp = g) := by
  constructor
  · intro h
    cases sec with
    | false =>
      exact absurd h (pullLoop_no_panic m fuel g [leaf] msg gp)
    | true =>
      cases m with
      | none =>
        simp only [pullRequiredBaseColumns] at h
        refine ⟨rfl, rfl, ?_, ?_⟩
        · cases h; rfl
        · cases h; rfl
      | some mp =>
        exact absurd h (pullLoop_no_panic (some mp) fuel g [leaf] msg gp)
  · intro ⟨hs, hm, hmsg, hgp⟩
    subst hs; subst hm; subst hmsg; subst hgp
    rfl

/-- C8: the universe-naming pass computes the replacement table name for
every qualified column of the base node's descendants but discards it; the
whole graph — columns, names, and edge structure — is unchanged whenever the
pass completes. -/
theorem naming_pass_noop (g : Graph) (leaf : Nat) (mp : TableMapping)
    (baseName : String) (fuel : Nat) (g' : Graph)
    (h : makeUniverseNamingConsistent g leaf mp baseName fuel = some g') :
    g' = g := by
  simp only [makeUniverseNamingConsistent] at h
  cases hf : findBase g baseName leaf fuel [leaf] with
  | none => rw [hf] at h; exact absurd h (by simp)
  | some b =>
    rw [hf] at h
    exact namingLoop_id mp fuel g [b] g' h

/-- Witness: the naming pass completes on the two-node chain with a mapped
qualified column and returns the graph unchanged. -/
theorem naming_pass_noop_witness :
    makeUniverseNamingConsistent namingGraph 0 namingMap "t" 10 =
      some namingGraph
    ∧ namingGraph = namingGraph :=
  ⟨by decide,
    naming_pass_noop namingGraph 0 namingMap "t" 10 namingGraph (by decide)⟩

theorem get_lt (g : Graph) (j : Nat) (n : MirNode) (h : g.get j = some n) :
    j < g.size := by
  rcases List.getElem?_eq_some_iff.mp h with ⟨hl, _⟩
  exact hl

theorem get_none_iff (g : Graph) (j : Nat) : g.get j = none ↔ g.size ≤ j :=
  List.getElem?_eq_none_iff

theorem get_isSome_of_lt (g : Graph) (j : Nat) (h : j < g.size) :
    ∃ n, g.get j = some n := by
  cases hg : g.get j with
  | none => exact absurd ((get_none_iff g j).mp hg) (Nat.not_le.mpr h)
  | some n => exact ⟨n, rfl⟩

theorem get_set_self (g : Graph) (i : Nat) (n₀ n : MirNode)
    (h : g.get i = some n₀) : (g.set i n).get i = some n := by
  have hlt : i < g.nodes.length := get_lt g i n₀ h
  show (g.nodes.set i n)[i]? = some n
  rw [List.getElem?_set]
  simp [hlt]

theorem get_set_ne (g : Graph) (i j : Nat) (n : MirNode) (h : i ≠ j) :
    (g.set i n).get j = g.get j := List.getElem?_set_ne h

theorem set_size (g : Graph) (i : Nat) (n : MirNode) :
    (g.set i n).size = g.size := List.length_set g.nodes i n

theorem addColG_size (g : Graph) (a : Nat) (c : Column) :
    (addColG g a c).size = g.size := by
  unfold addColG
  cases hg : g.get a with
  | none => rfl
  | some n => exact set_size g a _

theorem addColG_get_self (g : Graph) (a : Nat) (c : Column) (n : MirNode)
    (h : g.get a = some n) :
    (addColG g a c).get a = some { n with columns := n.columns ++ [c] } := by
  unfold addColG
  rw [h]
  exact get_set_self g a n _ h

theorem addColG_get_ne (g : Graph) (a j : Nat) (c : Column) (h : a ≠ j) :
    (addColG g a c).get j = g.get j := by
  unfold addColG
  cases hg : g.get a with
  | none => rfl
  | some n => exact get_set_ne g a j _ h

theorem node_append_nil (n : MirNode) :
    { n with columns := n.columns ++ [] } = n := by
  simp

theorem extends_refl (g : Graph) : Extends g g := by
  refine ⟨rfl, fun j n h => ⟨[], ?_⟩⟩
  rw [node_append_nil]
  exact h

theorem extends_trans {g g' g'' : Graph} (h1 : Extends g g')
    (h2 : Extends g' g'') : Extends g g'' := by
  refine ⟨h1.1.trans h2.1, fun j n h => ?_⟩
  rcases h1.2 j n h with ⟨l, hl⟩
  rcases h2.2 j _ hl with ⟨l', hl'⟩
  refine ⟨l ++ l', ?_⟩
  rw [hl']
  simp

theorem extends_size {g g' : Graph} (h : Extends g g') : g.size = g'.size :=
  h.1

theorem extends_get_none {g g' : Graph} (h : Extends g g') (j : Nat)
    (hj : g.get j = none) : g'.get j = none := by
  rw [get_none_iff] at hj ⊢
  exact h.1 ▸ hj

theorem extends_ancOf {g g' : Graph} (h : Extends g g') (j : Nat) :
    ancOf g' j = ancOf g j := by
  cases hg : g.get j with
  | none => simp [ancOf, hg, extends_get_none h j hg]
  | some n =>
    rcases h.2 j n hg with ⟨l, hl⟩
    simp [ancOf, hg, hl]

theorem extends_nameOf {g g' : Graph} (h : Extends g g') (j : Nat) :
    nameOf g' j = nameOf g j := by
  cases hg : g.get j with
  | none => simp [nameOf, hg, extends_get_none h j hg]
  | some n =>
    rcases h.2 j n hg with ⟨l, hl⟩
    simp [nameOf, hg, hl]

theorem extends_innerOf {g g' : Graph} (h : Extends g g') (j : Nat) :
    innerOf g' j = innerOf g j := by
  cases hg : g.get j with
  | none => simp [innerOf, hg, extends_get_none h j hg]
  | some n =>
    rcases h.2 j n hg with ⟨l, hl⟩
    simp [innerOf, hg, hl]

theorem extends_colsOf {g g' : Graph} (h : Extends g g') (j : Nat) :
    ∃ l, colsOf g' j = colsOf g j ++ l := by
  cases hg : g.get j with
  | none => exact ⟨[], by simp [colsOf, hg, extends_get_none h j hg]⟩
  | some n =>
    rcases h.2 j n hg with ⟨l, hl⟩
    exact ⟨l, by simp [colsOf, hg, hl]⟩

theorem addColG_extends (g : Graph) (a : Nat) (c : Column) :
    Extends g (addColG g a c) := by
  cases hg : g.get a with
  | none =>
    have : addColG g a c = g := by unfold addColG; rw [hg]
    rw [this]; exact extends_refl g
  | some n =>
    refine ⟨(addColG_size g a c).symm, fun j m h => ?_⟩
    by_cases hj : a = j
    · subst hj
      refine ⟨[c], ?_⟩
      rw [addColG_get_self g a c n hg]
      rw [hg] at h
      cases h
      rfl
    · refine ⟨[], ?_⟩
      rw [node_append_nil, addColG_get_ne g a j c hj]
      exact h

theorem justExt_trans {g g' g'' : Graph} (h1 : JustExt g g')
    (h2 : JustExt g' g'') : JustExt g g'' := by
  induction h2 with
  | refl => exact h1
  | step gm a c _ hcp ih => exact JustExt.step gm a c ih hcp

theorem justExt_extends {g g' : Graph} (h : JustExt g g') : Extends g g' := by
  induction h with
  | refl => exact extends_refl _
  | step gm a c _ hcp ih => exact extends_trans ih (addColG_extends gm a c)

theorem hcol_foldl (g : Graph) (f : Nat) (c : Column) :
    ∀ (l : List Nat) (acc : Option Bool),
      l.foldl (fun acc a =>
        match acc with
        | some true => some true
        | none => none
        | some false => hasColumnF g f a c) acc
      = match acc with
        | some true => some true
        | none => none
        | some false => hcolAux g f c l := by
  intro l
  induction l with
  | nil =>
    intro acc
    cases acc with
    | none => rfl
    | some b => cases b <;> rfl
  | cons a as ih =>
    intro acc
    cases acc with
    | none =>
      rw [List.foldl_cons]
      exact ih none
    | some b =>
      cases b with
      | true =>
        rw [List.foldl_cons]
        exact ih (some true)
      | false =>
        rw [List.foldl_cons]
        show as.foldl _ (hasColumnF g f a c) = hcolAux g f c (a :: as)
        rw [ih (hasColumnF g f a c)]
        cases hh : hasColumnF g f a c with
        | none => simp [hcolAux, hh]
        | some b' => cases b' <;> simp [hcolAux, hh]

theorem hasColF_succ (g : Graph) (f i : Nat) (c : Column) (n : MirNode)
    (h : g.get i = some n) :
    hasColumnF g (f + 1) i c =
      if c ∈ n.columns then some true else hcolAux g f c n.ancestors := by
  simp only [hasColumnF, h]
  by_cases hc : c ∈ n.columns
  · simp [hc]
  · simp only [hc, if_false]
    exact hcol_foldl g f c n.ancestors (some false)

theorem hcolAux_true_elim (g : Graph) (f : Nat) (c : Column) :
    ∀ l : List Nat, hcolAux g f c l = some true →
      ∃ a ∈ l, hasColumnF g f a c = some true := by
  intro l
  induction l with
  | nil => intro h; simp [hcolAux] at h
  | cons a as ih =>
    intro h
    cases hh : hasColumnF g f a c with
    | none => rw [hcolAux, hh] at h; exact absurd h (by simp)
    | some b =>
      cases b with
      | true => exact ⟨a, List.mem_cons_self a as, hh⟩
      | false =>
        rw [hcolAux, hh] at h
        rcases ih h with ⟨a', ha', ht⟩
        exact ⟨a', List.mem_cons_of_mem a ha', ht⟩

theorem hcolAux_false_elim (g : Graph) (f : Nat) (c : Column) :
    ∀ l : List Nat, hcolAux g f c l = some false →
      ∀ a ∈ l, hasColumnF g f a c = some false := by
  intro l
  induction l with
  | nil => intro _ a ha; simp at ha
  | cons a as ih =>
    intro h a' ha'
    cases hh : hasColumnF g f a c with
    | none => rw [hcolAux, hh] at h; exact absurd h (by simp)
    | some b =>
      cases b with
      | true => rw [hcolAux, hh] at h; exact absurd h (by simp)
      | false =>
        rw [hcolAux, hh] at h
        rcases List.mem_cons.mp ha' with h1 | h2
        · subst h1; exact hh
        · exact ih h a' h2

theorem hcolAux_false_intro (g : Graph) (f : Nat) (c : Column) :
    ∀ l : List Nat, (∀ a ∈ l, hasColumnF g f a c = some false) →
      hcolAux g f c l = some false := by
  intro l
  induction l with
  | nil => intro _; rfl
  | cons a as ih =>
    intro h
    rw [hcolAux, h a (List.mem_cons_self a as)]
    exact ih (fun a' ha' => h a' (List.mem_cons_of_mem a ha'))

theorem hasColF_true_sound (g : Graph) :
    ∀ (f i : Nat) (c : Column), hasColumnF g f i c = some true →
      HasColP g i c := by
  intro f
  induction f with
  | zero => intro i c h; simp [hasColumnF] at h
  | succ f ih =>
    intro i c h
    cases hg : g.get i with
    | none => rw [hasColumnF, hg] at h; exact absurd h (by simp)
    | some n =>
      rw [hasColF_succ g f i c n hg] at h
      by_cases hc : c ∈ n.columns
      · exact HasColP.self i c (by simpa [colsOf, hg] using hc)
      · rw [if_neg hc] at h
        rcases hcolAux_true_elim g f c n.ancestors h with ⟨a, ha, ht⟩
        exact HasColP.up i a c (by simpa [ancOf, hg] using ha) (ih a c ht)

theorem hasColF_false_sound (g : Graph) :
    ∀ (f i : Nat) (c : Column), hasColumnF g f i c = some false →
      ¬ HasColP g i c := by
  intro f
  induction f with
  | zero => intro i c h; simp [hasColumnF] at h
  | succ f ih =>
    intro i c h
    cases hg : g.get i with
    | none => rw [hasColumnF, hg] at h; exact absurd h (by simp)
    | some n =>
      rw [hasColF_succ g f i c n hg] at h
      by_cases hc : c ∈ n.columns
      · rw [if_pos hc] at h; exact absurd h (by simp)
      · rw [if_neg hc] at h
        intro hP
        cases hP with
        | self _ _ hmem =>
          rw [colsOf, hg] at hmem
          exact hc hmem
        | up _ a _ ha hPa =>
          rw [ancOf, hg] at ha
          exact ih a c (hcolAux_false_elim g f c n.ancestors h a ha) hPa

theorem hcolAux_mono (g g' : Graph) (f : Nat) (c : Column)
    (l : List Nat)
    (helem : ∀ a ∈ l,
      (hasColumnF g f a c = some true → hasColumnF g' f a c = some true)
      ∧ (hasColumnF g f a c = some false →
          hasColumnF g' f a c = some true ∨
          hasColumnF g' f a c = some false)) :
    (hcolAux g f c l = some true → hcolAux g' f c l = some true)
    ∧ (hcolAux g f c l = some false →
        hcolAux g' f c l = some true ∨ hcolAux g' f c l = some false) := by
  induction l with
  | nil => exact ⟨fun h => by simp [hcolAux] at h, fun _ => Or.inr rfl⟩
  | cons a as ih =>
    have hel := helem a (List.mem_cons_self a as)
    have ihr := ih (fun a' ha' => helem a' (List.mem_cons_of_mem a ha'))
    constructor
    · intro h
      cases hh : hasColumnF g f a c with
      | none => rw [hcolAux, hh] at h; exact absurd h (by simp)
      | some b =>
        cases b with
        | true =>
          have h' := hel.1 hh
          rw [hcolAux, h']
        | false =>
          rw [hcolAux, hh] at h
          rcases hel.2 hh with ht | hf
          · rw [hcolAux, ht]
          · rw [hcolAux, hf]
            exact ihr.1 h
    · intro h
      cases hh : hasColumnF g f a c with
      | none => rw [hcolAux, hh] at h; exact absurd h (by simp)
      | some b =>
        cases b with
        | true => rw [hcolAux, hh] at h; exact absurd h (by simp)
        | false =>
          rw [hcolAux, hh] at h
          rcases hel.2 hh with ht | hf
          · exact Or.inl (by rw [hcolAux, ht])
          · rw [hcolAux, hf]
            exact ihr.2 h

theorem hasColF_mono (g g' : Graph) (hext : Extends g g') :
    ∀ (f i : Nat) (c : Column),
      (hasColumnF g f i c = some true → hasColumnF g' f i c = some true)
      ∧ (hasColumnF g f i c = some false →
          hasColumnF g' f i c = some true ∨
          hasColumnF g' f i c = some false) := by
  intro f
  induction f with
  | zero =>
    intro i c
    exact ⟨fun h => by simp [hasColumnF] at h,
      fun h => by simp [hasColumnF] at h⟩
  | succ f ih =>
    intro i c
    cases hg : g.get i with
    | none =>
      constructor
      · intro h; rw [hasColumnF, hg] at h; exact absurd h (by simp)
      · intro h; rw [hasColumnF, hg] at h; exact absurd h (by simp)
    | some n =>
      rcases hext.2 i n hg with ⟨l, hg'⟩
      have hs := hasColF_succ g f i c n hg
      have hs' := hasColF_succ g' f i c _ hg'
      have haux := hcolAux_mono g g' f c n.ancestors
        (fun a _ => ih a c)
      constructor
      · intro h
        rw [hs] at h
        rw [hs']
        show (if c ∈ n.columns ++ l then some true
          else hcolAux g' f c n.ancestors) = some true
        by_cases hc : c ∈ n.columns
        · have hm : c ∈ n.columns ++ l := List.mem_append_left l hc
          rw [if_pos hm]
        · rw [if_neg hc] at h
          by_cases hc' : c ∈ n.columns ++ l
          · rw [if_pos hc']
          · rw [if_neg hc']
            exact haux.1 h
      · intro h
        rw [hs] at h
        rw [hs']
        show (if c ∈ n.columns ++ l then some true
            else hcolAux g' f c n.ancestors) = some true
          ∨ (if c ∈ n.columns ++ l then some true
            else hcolAux g' f c n.ancestors) = some false
        by_cases hc : c ∈ n.columns
        · rw [if_pos hc] at h; exact absurd h (by simp)
        · rw [if_neg hc] at h
          by_cases hc' : c ∈ n.columns ++ l
          · exact Or.inl (by rw [if_pos hc'])
          · rw [if_neg hc']
            exact haux.2 h

theorem colLoop_just (skip : Column → Bool) (s a : Nat) :
    ∀ (cs : List Column) (g : Graph) (found : List Column)
      (g₁ : Graph) (found₁ : List Column),
      colLoop skip s a g cs found = some (g₁, found₁) → JustExt g g₁ := by
  intro cs
  induction cs with
  | nil =>
    intro g found g₁ found₁ h
    simp only [colLoop, Option.some.injEq, Prod.mk.injEq] at h
    rw [← h.1]
    exact JustExt.refl
  | cons c cs ih =>
    intro g found g₁ found₁ h
    simp only [colLoop] at h
    split at h
    · exact ih g found g₁ found₁ h
    · split at h
      · exact ih g found g₁ found₁ h
      · split at h
        · exact absurd h (by simp)
        · exact ih g found g₁ found₁ h
        · rename_i hguard
          split at h
          · exact absurd h (by simp)
          · have hstep : JustExt g (addColG g a c) :=
              JustExt.step g a c JustExt.refl
                (hasColF_true_sound g (g.size + 1) a c hguard)
            exact justExt_trans hstep
              (ih (addColG g a c) (found ++ [c]) g₁ found₁ h)

theorem ancLoop_just (skip : Column → Bool) (s : Nat) (needed : List Column) :
    ∀ (as : List Nat) (g : Graph) (found : List Column) (pushes : List Nat)
      (g₂ : Graph) (ps : List Nat),
      ancLoop skip s needed g as found pushes = some (g₂, ps) →
        JustExt g g₂ := by
  intro as
  induction as with
  | nil =>
    intro g found pushes g₂ ps h
    simp only [ancLoop, Option.some.injEq, Prod.mk.injEq] at h
    rw [← h.1]
    exact JustExt.refl
  | cons a as ih =>
    intro g found pushes g₂ ps h
    simp only [ancLoop] at h
    split at h
    · exact absurd h (by simp)
    · split at h
      · exact ih g found pushes g₂ ps h
      · split at h
        · exact absurd h (by simp)
        · rename_i g' found' hcol
          exact justExt_trans
            (colLoop_just skip s a needed g found g' found' hcol)
            (ih g' found' (pushes ++ [a]) g₂ ps h)

theorem processNode_just (g : Graph) (m : Option TableMapping) (i : Nat)
    (g' : Graph) (ps : List Nat) (h : processNode g m i = some (g', ps)) :
    JustExt g g' := by
  unfold processNode at h
  split at h
  · exact absurd h (by simp)
  · rename_i n hget
    split at h
    · exact ancLoop_just _ i _ n.ancestors g [] [] g' ps h
    · exact ancLoop_just _ i _ n.ancestors g [] [] g' ps h

theorem pullLoop_just (m : Option TableMapping) :
    ∀ (f : Nat) (g : Graph) (Q : List Nat) (gEnd : Graph),
      pullLoop m f g Q = .ok gEnd → JustExt g gEnd := by
  intro f
  induction f with
  | zero =>
    intro g Q gEnd h
    cases Q with
    | nil =>
      simp only [pullLoop, PullRes.ok.injEq] at h
      rw [← h]
      exact JustExt.refl
    | cons i rest => simp [pullLoop] at h
  | succ f ih =>
    intro g Q gEnd h
    cases Q with
    | nil =>
      simp only [pullLoop, PullRes.ok.injEq] at h
      rw [← h]
      exact JustExt.refl
    | cons i rest =>
      simp only [pullLoop] at h
      split at h
      · exact absurd h (by simp)
      · rename_i g1 ps hproc
        exact justExt_trans (processNode_just g m i g1 ps hproc)
          (ih g1 (ps.reverse ++ rest) gEnd h)

theorem pull_ok_loop (g : Graph) (leaf : Nat) (m : Option TableMapping)
    (sec : Bool) (fuel : Nat) (g' : Graph)
    (h : pullRequiredBaseColumns g leaf m sec fuel = .ok g') :
    pullLoop m fuel g [leaf] = .ok g' := by
  unfold pullRequiredBaseColumns at h
  split at h
  · split at h
    · exact h
    · exact absurd h (by simp)
  · exact h

theorem pull_ok_extends (g : Graph) (leaf : Nat) (m : Option TableMapping)
    (sec : Bool) (fuel : Nat) (g' : Graph)
    (h : pullRequiredBaseColumns g leaf m sec fuel = .ok g') :
    Extends g g' :=
  justExt_extends
    (pullLoop_just m fuel g [leaf] g' (pull_ok_loop g leaf m sec fuel g' h))

/-- C3 (amended): the column-pull pass preserves column availability — if,
before the pass, every column referenced by any node was already in that
node's own output columns or reachable via `has_column` from one of its
immediate ancestors, then the same holds after the pass (for every referenced
column, including columns the pass itself appended).  The claim as stated —
availability unconditionally after the pass — fails on inputs referencing a
column that exists nowhere (see the counterexample), because the pass only
relocates columns that `has_column` can already reach; it cannot invent
them. -/
theorem pull_availability_preserved (g : Graph) (leaf : Nat)
    (m : Option TableMapping) (sec : Bool) (fuel : Nat) (g' : Graph)
    (hav : ColumnsAvailable g)
    (h : pullRequiredBaseColumns g leaf m sec fuel = .ok g') :
    ColumnsAvailable g' := by
  have hext : Extends g g' := pull_ok_extends g leaf m sec fuel g' h
  intro i hi c hc
  have hi' : i < g.size := by rw [extends_size hext]; exact hi
  obtain ⟨n, hg⟩ := get_isSome_of_lt g i hi'
  obtain ⟨l, hg'⟩ := hext.2 i n hg
  rw [referencedOf, hg'] at hc
  have hc2 : c ∈ (n.columns ++ l) ++ n.extraRef := hc
  rcases List.mem_append.mp hc2 with hcl | hce
  · left
    rw [colsOf, hg']
    exact hcl
  · have hcg : c ∈ referencedOf g i := by
      rw [referencedOf, hg]
      exact List.mem_append_right n.columns hce
    rcases hav i hi' c hcg with hown | ⟨a, ha, htrue⟩
    · left
      rw [colsOf, hg']
      rw [colsOf, hg] at hown
      exact List.mem_append_left l hown
    · right
      refine ⟨a, ?_, ?_⟩
      · rw [extends_ancOf hext]
        exact ha
      · have hsz : g'.size = g.size := (extends_size hext).symm
        rw [hsz]
        exact (hasColF_mono g g' hext (g.size + 1) a c).1 htrue

/-- Witness for the amended column-availability claim, on the four-node
chain where the pass actually pulls the filter's predicate column `b` into
the projection. -/
theorem pull_availability_preserved_witness :
    (ColumnsAvailable pullChainGraph
      ∧ pullRequiredBaseColumns pullChainGraph 0 none false 20 =
          .ok pullChainOnce)
    ∧ ColumnsAvailable pullChainOnce :=
  ⟨⟨by decide, by decide⟩,
    pull_availability_preserved pullChainGraph 0 none false 20 pullChainOnce
      (by decide) (by decide)⟩

/-- C3 counterexample: on `ghostGraph` the filter node 1 references the
ghost column `b`; the column-pull pass completes, yet afterwards `b` is
neither among node 1's own output columns nor reachable via `has_column`
from its only immediate ancestor (the base node 2).  The claim fails as
stated for graphs whose referenced columns are not resolvable anywhere. -/
theorem pull_availability_cex :
    pullRequiredBaseColumns ghostGraph 0 none false 20 = .ok ghostOut
    ∧ colB ∈ referencedOf ghostOut 1
    ∧ colB ∉ colsOf ghostOut 1
    ∧ ancOf ghostOut 1 = [2]
    ∧ hasColumnF ghostOut (ghostOut.size + 1) 2 colB = some false := by
  decide

theorem addChildG_get (g : Graph) (i c j : Nat) :
    (addChildG g i c).get j =
      if i = j then
        (g.get i).map (fun n => { n with children := n.children ++ [c] })
      else g.get j := by
  unfold addChildG
  cases hg : g.get i with
  | none =>
    by_cases hij : i = j
    · subst hij
      simp [hg]
    · simp [hij]
  | some n =>
    by_cases hij : i = j
    · subst hij
      rw [if_pos rfl]
      exact get_set_self g i n _ hg
    · rw [if_neg hij]
      exact get_set_ne g i j _ hij

theorem addAncG_get (g : Graph) (i a j : Nat) :
    (addAncG g i a).get j =
      if i = j then
        (g.get i).map (fun n => { n with ancestors := n.ancestors ++ [a] })
      else g.get j := by
  unfold addAncG
  cases hg : g.get i with
  | none =>
    by_cases hij : i = j
    · subst hij
      simp [hg]
    · simp [hij]
  | some n =>
    by_cases hij : i = j
    · subst hij
      rw [if_pos rfl]
      exact get_set_self g i n _ hg
    · rw [if_neg hij]
      exact get_set_ne g i j _ hij

theorem removeChildG_get (g : Graph) (i c j : Nat) :
    (removeChildG g i c).get j =
      if i = j then
        (g.get i).map (fun n => { n with children := n.children.erase c })
      else g.get j := by
  unfold removeChildG
  cases hg : g.get i with
  | none =>
    by_cases hij : i = j
    · subst hij
      simp [hg]
    · simp [hij]
  | some n =>
    by_cases hij : i = j
    · subst hij
      rw [if_pos rfl]
      exact get_set_self g i n _ hg
    · rw [if_neg hij]
      exact get_set_ne g i j _ hij

theorem removeAncG_get (g : Graph) (i a j : Nat) :
    (removeAncG g i a).get j =
      if i = j then
        (g.get i).map (fun n => { n with ancestors := n.ancestors.erase a })
      else g.get j := by
  unfold removeAncG
  cases hg : g.get i with
  | none =>
    by_cases hij : i = j
    · subst hij
      simp [hg]
    · simp [hij]
  | some n =>
    by_cases hij : i = j
    · subst hij
      rw [if_pos rfl]
      exact get_set_self g i n _ hg
    · rw [if_neg hij]
      exact get_set_ne g i j _ hij

theorem push_size (g : Graph) (n : MirNode) : (g.push n).size = g.size + 1 :=
  List.length_append g.nodes [n]

theorem push_get_lt (g : Graph) (n : MirNode) (j : Nat) (h : j < g.size) :
    (g.push n).get j = g.get j := by
  show (g.nodes ++ [n])[j]? = g.nodes[j]?
  rw [List.getElem?_append]
  exact if_pos h

theorem push_get_self (g : Graph) (n : MirNode) :
    (g.push n).get g.size = some n := by
  show (g.nodes ++ [n])[g.nodes.length]? = some n
  rw [List.getElem?_append]
  simp

theorem push_get_gt (g : Graph) (n : MirNode) (j : Nat) (h : g.size < j) :
    (g.push n).get j = none := by
  rw [get_none_iff, push_size]
  exact h

theorem push_get_ne (g : Graph) (n : MirNode) (j : Nat) (h : j ≠ g.size) :
    (g.push n).get j = g.get j := by
  rcases Nat.lt_or_ge j g.size with hlt | hge
  · exact push_get_lt g n j hlt
  · have hgt : g.size < j := Nat.lt_of_le_of_ne hge (fun e => h e.symm)
    rw [push_get_gt g n j hgt, (get_none_iff g j).mpr (Nat.le_of_lt hgt)]

theorem addChildG_size (g : Graph) (i c : Nat) :
    (addChildG g i c).size = g.size := by
  unfold addChildG
  cases g.get i with
  | none => rfl
  | some n => exact set_size g i _

theorem addAncG_size (g : Graph) (i a : Nat) :
    (addAncG g i a).size = g.size := by
  unfold addAncG
  cases g.get i with
  | none => rfl
  | some n => exact set_size g i _

theorem removeChildG_size (g : Graph) (i c : Nat) :
    (removeChildG g i c).size = g.size := by
  unfold removeChildG
  cases g.get i with
  | none => rfl
  | some n => exact set_size g i _

theorem removeAncG_size (g : Graph) (i a : Nat) :
    (removeAncG g i a).size = g.size := by
  unfold removeAncG
  cases g.get i with
  | none => rfl
  | some n => exact set_size g i _

theorem addChildG_anc (g : Graph) (i c j : Nat) :
    ancOf (addChildG g i c) j = ancOf g j := by
  rw [ancOf, addChildG_get]
  by_cases hij : i = j
  · subst hij
    rw [if_pos rfl]
    cases hg : g.get i <;> simp [ancOf, hg]
  · rw [if_neg hij, ancOf]

theorem addChildG_name (g : Graph) (i c j : Nat) :
    nameOf (addChildG g i c) j = nameOf g j := by
  rw [nameOf, addChildG_get]
  by_cases hij : i = j
  · subst hij
    rw [if_pos rfl]
    cases hg : g.get i <;> simp [nameOf, hg]
  · rw [if_neg hij, nameOf]

theorem addChildG_inner (g : Graph) (i c j : Nat) :
    innerOf (addChildG g i c) j = innerOf g j := by
  rw [innerOf, addChildG_get]
  by_cases hij : i = j
  · subst hij
    rw [if_pos rfl]
    cases hg : g.get i <;> simp [innerOf, hg]
  · rw [if_neg hij, innerOf]

theorem addChildG_cols (g : Graph) (i c j : Nat) :
    colsOf (addChildG g i c) j = colsOf g j := by
  rw [colsOf, addChildG_get]
  by_cases hij : i = j
  · subst hij
    rw [if_pos rfl]
    cases hg : g.get i <;> simp [colsOf, hg]
  · rw [if_neg hij, colsOf]

theorem addChildG_children_self (g : Graph) (i c : Nat) (n : MirNode)
    (h : g.get i = some n) :
    childrenOf (addChildG g i c) i = childrenOf g i ++ [c] := by
  rw [childrenOf, addChildG_get, if_pos rfl, h]
  simp [childrenOf, h]

theorem addChildG_children_ne (g : Graph) (i c j : Nat) (h : i ≠ j) :
    childrenOf (addChildG g i c) j = childrenOf g j := by
  rw [childrenOf, addChildG_get, if_neg h, childrenOf]

theorem addAncG_children (g : Graph) (i a j : Nat) :
    childrenOf (addAncG g i a) j = childrenOf g j := by
  rw [childrenOf, addAncG_get]
  by_cases hij : i = j
  · subst hij
    rw [if_pos rfl]
    cases hg : g.get i <;> simp [childrenOf, hg]
  · rw [if_neg hij, childrenOf]

theorem addAncG_name (g : Graph) (i a j : Nat) :
    nameOf (addAncG g i a) j = nameOf g j := by
  rw [nameOf, addAncG_get]
  by_cases hij : i = j
  · subst hij
    rw [if_pos rfl]
    cases hg : g.get i <;> simp [nameOf, hg]
  · rw [if_neg hij, nameOf]

theorem addAncG_inner (g : Graph) (i a j : Nat) :
    innerOf (addAncG g i a) j = innerOf g j := by
  rw [innerOf, addAncG_get]
  by_cases hij : i = j
  · subst hij
    rw [if_pos rfl]
    cases hg : g.get i <;> simp [innerOf, hg]
  · rw [if_neg hij, innerOf]

theorem addAncG_cols (g : Graph) (i a j : Nat) :
    colsOf (addAncG g i a) j = colsOf g j := by
  rw [colsOf, addAncG_get]
  by_cases hij : i = j
  · subst hij
    rw [if_pos rfl]
    cases hg : g.get i <;> simp [colsOf, hg]
  · rw [if_neg hij, colsOf]

theorem addAncG_anc_self (g : Graph) (i a : Nat) (n : MirNode)
    (h : g.get i = some n) :
    ancOf (addAncG g i a) i = ancOf g i ++ [a] := by
  rw [ancOf, addAncG_get, if_pos rfl, h]
  simp [ancOf, h]

theorem addAncG_anc_ne (g : Graph) (i a j : Nat) (h : i ≠ j) :
    ancOf (addAncG g i a) j = ancOf g j := by
  rw [ancOf, addAncG_get, if_neg h, ancOf]

theorem removeChildG_anc (g : Graph) (i c j : Nat) :
    ancOf (removeChildG g i c) j = ancOf g j := by
  rw [ancOf, removeChildG_get]
  by_cases hij : i = j
  · subst hij
    rw [if_pos rfl]
    cases hg : g.get i <;> simp [ancOf, hg]
  · rw [if_neg hij, ancOf]

theorem removeChildG_name (g : Graph) (i c j : Nat) :
    nameOf (removeChildG g i c) j = nameOf g j := by
  rw [nameOf, removeChildG_get]
  by_cases hij : i = j
  · subst hij
    rw [if_pos rfl]
    cases hg : g.get i <;> simp [nameOf, hg]
  · rw [if_neg hij, nameOf]

theorem removeChildG_inner (g : Graph) (i c j : Nat) :
    innerOf (removeChildG g i c) j = innerOf g j := by
  rw [innerOf, removeChildG_get]
  by_cases hij : i = j
  · subst hij
    rw [if_pos rfl]
    cases hg : g.get i <;> simp [innerOf, hg]
  · rw [if_neg hij, innerOf]

theorem removeChildG_cols (g : Graph) (i c j : Nat) :
    colsOf (removeChildG g i c) j = colsOf g j := by
  rw [colsOf, removeChildG_get]
  by_cases hij : i = j
  · subst hij
    rw [if_pos rfl]
    cases hg : g.get i <;> simp [colsOf, hg]
  · rw [if_neg hij, colsOf]

theorem removeChildG_children_self (g : Graph) (i c : Nat) (n : MirNode)
    (h : g.get i = some n) :
    childrenOf (removeChildG g i c) i = (childrenOf g i).erase c := by
  rw [childrenOf, removeChildG_get, if_pos rfl, h]
  simp [childrenOf, h]

theorem removeChildG_children_ne (g : Graph) (i c j : Nat) (h : i ≠ j) :
    childrenOf (removeChildG g i c) j = childrenOf g j := by
  rw [childrenOf, removeChildG_get, if_neg h, childrenOf]

theorem removeAncG_children (g : Graph) (i a j : Nat) :
    childrenOf (removeAncG g i a) j = childrenOf g j := by
  rw [childrenOf, removeAncG_get]
  by_cases hij : i = j
  · subst hij
    rw [if_pos rfl]
    cases hg : g.get i <;> simp [childrenOf, hg]
  · rw [if_neg hij, childrenOf]

theorem removeAncG_name (g : Graph) (i a j : Nat) :
    nameOf (removeAncG g i a) j = nameOf g j := by
  rw [nameOf, removeAncG_get]
  by_cases hij : i = j
  · subst hij
    rw [if_pos rfl]
    cases hg : g.get i <;> simp [nameOf, hg]
  · rw [if_neg hij, nameOf]

theorem removeAncG_inner (g : Graph) (i a j : Nat) :
    innerOf (removeAncG g i a) j = innerOf g j := by
  rw [innerOf, removeAncG_get]
  by_cases hij : i = j
  · subst hij
    rw [if_pos rfl]
    cases hg : g.get i <;> simp [innerOf, hg]
  · rw [if_neg hij, innerOf]

theorem removeAncG_cols (g : Graph) (i a j : Nat) :
    colsOf (removeAncG g i a) j = colsOf g j := by
  rw [colsOf, removeAncG_get]
  by_cases hij : i = j
  · subst hij
    rw [if_pos rfl]
    cases hg : g.get i <;> simp [colsOf, hg]
  · rw [if_neg hij, colsOf]

theorem removeAncG_anc_self (g : Graph) (i a : Nat) (n : MirNode)
    (h : g.get i = some n) :
    ancOf (removeAncG g i a) i = (ancOf g i).erase a := by
  rw [ancOf, removeAncG_get, if_pos rfl, h]
  simp [ancOf, h]

theorem removeAncG_anc_ne (g : Graph) (i a j : Nat) (h : i ≠ j) :
    ancOf (removeAncG g i a) j = ancOf g j := by
  rw [ancOf, removeAncG_get, if_neg h, ancOf]

theorem push_anc_ne (g : Graph) (n : MirNode) (j : Nat) (h : j ≠ g.size) :
    ancOf (g.push n) j = ancOf g j := by
  rw [ancOf, push_get_ne g n j h, ancOf]

theorem push_anc_self (g : Graph) (n : MirNode) :
    ancOf (g.push n) g.size = n.ancestors := by
  rw [ancOf, push_get_self]

theorem push_children_ne (g : Graph) (n : MirNode) (j : Nat)
    (h : j ≠ g.size) : childrenOf (g.push n) j = childrenOf g j := by
  rw [childrenOf, push_get_ne g n j h, childrenOf]

theorem push_children_self (g : Graph) (n : MirNode) :
    childrenOf (g.push n) g.size = n.children := by
  rw [childrenOf, push_get_self]

theorem push_name_ne (g : Graph) (n : MirNode) (j : Nat) (h : j ≠ g.size) :
    nameOf (g.push n) j = nameOf g j := by
  rw [nameOf, push_get_ne g n j h, nameOf]

theorem push_name_self (g : Graph) (n : MirNode) :
    nameOf (g.push n) g.size = n.name := by
  rw [nameOf, push_get_self]

theorem push_inner_ne (g : Graph) (n : MirNode) (j : Nat) (h : j ≠ g.size) :
    innerOf (g.push n) j = innerOf g j := by
  rw [innerOf, push_get_ne g n j h, innerOf]

theorem push_inner_self (g : Graph) (n : MirNode) :
    innerOf (g.push n) g.size = some n.inner := by
  rw [innerOf, push_get_self]

theorem push_cols_ne (g : Graph) (n : MirNode) (j : Nat) (h : j ≠ g.size) :
    colsOf (g.push n) j = colsOf g j := by
  rw [colsOf, push_get_ne g n j h, colsOf]

theorem closedB_closedP (g : Graph) (h : closedB g = true) : ClosedP g := by
  intro j n hget
  have hmem : n ∈ g.nodes := by
    rcases List.getElem?_eq_some_iff.mp hget with ⟨hl, he⟩
    exact he ▸ List.getElem_mem hl
  rw [closedB, List.all_eq_true] at h
  have hn := h n hmem
  simp only [Bool.and_eq_true, List.all_eq_true] at hn
  obtain ⟨⟨h1, h2⟩, h3⟩ := hn
  refine ⟨fun a ha => by simpa using h1 a ha,
    fun c hc => by simpa using h2 c hc, ?_⟩
  intro t ht
  rw [ht] at h3
  simpa using h3

theorem checkMat_succ (g : Graph) (f i : Nat) (n : MirNode)
    (h : g.get i = some n) :
    checkMatF g (f + 1) i =
      if strStarts n.name "sp_" then .ok false
      else
        match n.inner with
        | .Aggregation | .Base | .TopK | .Join => .ok true
        | .Project | .Filter =>
          match n.ancestors with
          | [] => .panicIdx
          | a :: _ => checkMatF g f a
        | .Reuse t => checkMatF g f t
        | _ => .ok false := by
  simp only [checkMatF, h]

theorem checkMat_fuel_mono (g : Graph) :
    ∀ (f i : Nat) (b : Bool), checkMatF g f i = .ok b →
      ∀ f', f ≤ f' → checkMatF g f' i = .ok b := by
  intro f
  induction f with
  | zero => intro i b h; simp [checkMatF] at h
  | succ f ih =>
    intro i b h f' hf
    obtain ⟨f'', rfl⟩ : ∃ f'', f' = f'' + 1 := ⟨f' - 1, by omega⟩
    have hff : f ≤ f'' := by omega
    cases hg : g.get i with
    | none =>
      simp only [checkMatF, hg] at h
      exact absurd h (by simp)
    | some n =>
      rw [checkMat_succ g f i n hg] at h
      rw [checkMat_succ g f'' i n hg]
      by_cases hsp : strStarts n.name "sp_" = true
      · rw [if_pos hsp] at h
        rw [if_pos hsp]
        exact h
      · rw [if_neg hsp] at h
        rw [if_neg hsp]
        cases hin : n.inner with
        | Aggregation => simp only [hin] at h ⊢; exact h
        | Base => simp only [hin] at h ⊢; exact h
        | TopK => simp only [hin] at h ⊢; exact h
        | Join => simp only [hin] at h ⊢; exact h
        | Project =>
          simp only [hin] at h ⊢
          cases hanc : n.ancestors with
          | nil => simp only [hanc] at h; exact absurd h (by simp)
          | cons a as =>
            simp only [hanc] at h ⊢
            exact ih a b h f'' hff
        | Filter =>
          simp only [hin] at h ⊢
          cases hanc : n.ancestors with
          | nil => simp only [hanc] at h; exact absurd h (by simp)
          | cons a as =>
            simp only [hanc] at h ⊢
            exact ih a b h f'' hff
        | Identity b' => simp only [hin] at h ⊢; exact h
        | Reuse t => simp only [hin] at h ⊢; exact ih t b h f'' hff
        | Leaf => simp only [hin] at h ⊢; exact h
        | Union => simp only [hin] at h ⊢; exact h

theorem checkMat_agree (g g' : Graph) (hsz : g.size ≤ g'.size)
    (hcl : ClosedP g)
    (hname : ∀ j, j < g.size → nameOf g' j = nameOf g j)
    (hinner : ∀ j, j < g.size → innerOf g' j = innerOf g j)
    (hanc : ∀ j, j < g.size →
      (innerOf g j = some .Project ∨ innerOf g j = some .Filter) →
      ancOf g' j = ancOf g j) :
    ∀ f i, i < g.size → checkMatF g' f i = checkMatF g f i := by
  intro f
  induction f with
  | zero => intro i _; rfl
  | succ f ih =>
    intro i hi
    obtain ⟨n, hg⟩ := get_isSome_of_lt g i hi
    obtain ⟨n', hg'⟩ := get_isSome_of_lt g' i (lt_of_lt_of_le hi hsz)
    rw [checkMat_succ g f i n hg, checkMat_succ g' f i n' hg']
    have hnm : n'.name = n.name := by
      have hh := hname i hi
      simp only [nameOf, hg, hg'] at hh
      exact hh
    have hinq : n'.inner = n.inner := by
      have hh := hinner i hi
      simp only [innerOf, hg, hg', Option.some.injEq] at hh
      exact hh
    rw [hnm, hinq]
    by_cases hsp : strStarts n.name "sp_" = true
    · rw [if_pos hsp, if_pos hsp]
    · rw [if_neg hsp, if_neg hsp]
      cases hin : n.inner with
      | Aggregation => rfl
      | Base => rfl
      | TopK => rfl
      | Join => rfl
      | Project =>
        have hancs : n'.ancestors = n.ancestors := by
          have hh := hanc i hi (Or.inl (by simp only [innerOf, hg, hin]))
          simp only [ancOf, hg, hg'] at hh
          exact hh
        simp only [hancs]
        cases hal : n.ancestors with
        | nil => rfl
        | cons a as =>
          have ha : a < g.size := (hcl i n hg).1 a
            (by rw [hal]; exact List.mem_cons_self a as)
          exact ih a ha
      | Filter =>
        have hancs : n'.ancestors = n.ancestors := by
          have hh := hanc i hi (Or.inr (by simp only [innerOf, hg, hin]))
          simp only [ancOf, hg, hg'] at hh
          exact hh
        simp only [hancs]
        cases hal : n.ancestors with
        | nil => rfl
        | cons a as =>
          have ha : a < g.size := (hcl i n hg).1 a
            (by rw [hal]; exact List.mem_cons_self a as)
          exact ih a ha
      | Identity b' => rfl
      | Reuse t =>
        have ht : t < g.size := (hcl i n hg).2.2 t hin
        exact ih t ht
      | Leaf => rfl
      | Union => rfl

theorem checkReuseF_matid (g : Graph) :
    ∀ (fz t e : Nat), checkReuseF g fz t = some (some e) →
      matidName g e = true := by
  intro fz
  induction fz with
  | zero => intro t e h; simp [checkReuseF] at h
  | succ fz ih =>
    intro t e h
    cases hg : g.get t with
    | none => rw [checkReuseF, hg] at h; exact absurd h (by simp)
    | some n =>
      simp only [checkReuseF, hg] at h
      cases hf : n.children.find? (fun c => matidName g c) with
      | some c =>
        rw [hf] at h
        have hc : c = e := by
          simp only [Option.some.injEq] at h
          exact h
        rw [← hc]
        exact List.find?_some hf
      | none =>
        rw [hf] at h
        cases hin : n.inner <;> simp only [hin] at h
        case Reuse t' => exact ih t' e h
        all_goals exact absurd h (by simp)

theorem checkReuseF_lt (g : Graph) (hcl : ClosedP g) :
    ∀ (fz t e : Nat), t < g.size → checkReuseF g fz t = some (some e) →
      e < g.size := by
  intro fz
  induction fz with
  | zero => intro t e _ h; simp [checkReuseF] at h
  | succ fz ih =>
    intro t e ht h
    cases hg : g.get t with
    | none => rw [checkReuseF, hg] at h; exact absurd h (by simp)
    | some n =>
      simp only [checkReuseF, hg] at h
      cases hf : n.children.find? (fun c => matidName g c) with
      | some c =>
        rw [hf] at h
        have hc : c = e := by
          simp only [Option.some.injEq] at h
          exact h
        have hmem : c ∈ n.children := List.mem_of_find?_eq_some hf
        rw [← hc]
        exact (hcl t n hg).2.1 c hmem
      | none =>
        rw [hf] at h
        cases hin : n.inner <;> simp only [hin] at h
        case Reuse t' =>
          exact ih t' e ((hcl t n hg).2.2 t' hin) h
        all_goals exact absurd h (by simp)

theorem spliceReuse_size (g : Graph) (u v : Nat) (e : Nat × Nat) :
    (spliceReuse g u v e).size = g.size + 1 := by
  simp only [spliceReuse, addAncG_size, addChildG_size, push_size,
    removeAncG_size, removeChildG_size]

theorem spliceReuse_name (g : Graph) (u v : Nat) (e : Nat × Nat) (j : Nat)
    (hj : j < g.size) : nameOf (spliceReuse g u v e) j = nameOf g j := by
  simp only [spliceReuse, addAncG_name, addChildG_name]
  rw [push_name_ne _ _ _
    (by simp only [removeAncG_size, removeChildG_size]; omega)]
  simp only [removeAncG_name, removeChildG_name]

theorem spliceReuse_inner (g : Graph) (u v : Nat) (e : Nat × Nat) (j : Nat)
    (hj : j < g.size) : innerOf (spliceReuse g u v e) j = innerOf g j := by
  simp only [spliceReuse, addAncG_inner, addChildG_inner]
  rw [push_inner_ne _ _ _
    (by simp only [removeAncG_size, removeChildG_size]; omega)]
  simp only [removeAncG_inner, removeChildG_inner]

theorem spliceReuse_anc_ne (g : Graph) (u v : Nat) (e : Nat × Nat) (j : Nat)
    (hj : j < g.size) (hju : j ≠ u) :
    ancOf (spliceReuse g u v e) j = ancOf g j := by
  simp only [spliceReuse]
  rw [addAncG_anc_ne _ _ _ _ (fun e' => hju e'.symm)]
  rw [addChildG_anc]
  rw [addAncG_anc_ne _ _ _ _
    (by simp only [addChildG_size, push_size, removeAncG_size,
      removeChildG_size]; omega)]
  rw [addChildG_anc]
  rw [push_anc_ne _ _ _
    (by simp only [removeAncG_size, removeChildG_size]; omega)]
  rw [removeAncG_anc_ne _ _ _ _ (fun e' => hju e'.symm)]
  rw [removeChildG_anc]

theorem spliceReuse_anc_u (g : Graph) (u v : Nat) (e : Nat × Nat)
    (hu : u < g.size) :
    ancOf (spliceReuse g u v e) u = ((ancOf g u).erase e.1) ++ [g.size] := by
  simp only [spliceReuse]
  have hsz2 : (removeAncG (removeChildG g e.1 u) u e.1).size = g.size := by
    simp only [removeAncG_size, removeChildG_size]
  have hu6 : u <
      (addChildG
        (addAncG
          (addChildG ((removeAncG (removeChildG g e.1 u) u e.1).push
            { name := nameOf (removeAncG (removeChildG g e.1 u) u e.1) e.2,
              fromVersion := v,
              columns := colsOf (removeAncG (removeChildG g e.1 u) u e.1) e.2,
              inner := .Reuse e.2, ancestors := [], children := [],
              extraRef := [] }) e.1
            (removeAncG (removeChildG g e.1 u) u e.1).size)
          (removeAncG (removeChildG g e.1 u) u e.1).size e.1)
        (removeAncG (removeChildG g e.1 u) u e.1).size u).size := by
    simp only [addChildG_size, addAncG_size, push_size, removeAncG_size,
      removeChildG_size]
    omega
  obtain ⟨n6, hn6⟩ := get_isSome_of_lt _ u hu6
  rw [addAncG_anc_self _ u _ n6 hn6]
  rw [addChildG_anc]
  rw [addAncG_anc_ne _ _ _ _ (by rw [hsz2]; omega)]
  rw [addChildG_anc]
  rw [push_anc_ne _ _ _ (by rw [hsz2]; omega)]
  have hu1 : u < (removeChildG g e.1 u).size := by
    rw [removeChildG_size]; exact hu
  obtain ⟨n1, hn1⟩ := get_isSome_of_lt _ u hu1
  rw [removeAncG_anc_self _ u _ n1 hn1]
  rw [removeChildG_anc, hsz2]

theorem spliceReuse_fresh_inner (g : Graph) (u v : Nat) (e : Nat × Nat) :
    innerOf (spliceReuse g u v e) g.size = some (.Reuse e.2) := by
  simp only [spliceReuse]
  have hsz2 : (removeAncG (removeChildG g e.1 u) u e.1).size = g.size := by
    simp only [removeAncG_size, removeChildG_size]
  rw [← hsz2]
  simp only [addAncG_inner, addChildG_inner]
  rw [push_inner_self]

theorem addAncG_anc_self' (g : Graph) (i a : Nat) (h : i < g.size) :
    ancOf (addAncG g i a) i = ancOf g i ++ [a] := by
  obtain ⟨n, hn⟩ := get_isSome_of_lt g i h
  exact addAncG_anc_self g i a n hn

theorem removeAncG_anc_self' (g : Graph) (i a : Nat) (h : i < g.size) :
    ancOf (removeAncG g i a) i = (ancOf g i).erase a := by
  obtain ⟨n, hn⟩ := get_isSome_of_lt g i h
  exact removeAncG_anc_self g i a n hn

theorem addChildG_children_self' (g : Graph) (i c : Nat) (h : i < g.size) :
    childrenOf (addChildG g i c) i = childrenOf g i ++ [c] := by
  obtain ⟨n, hn⟩ := get_isSome_of_lt g i h
  exact addChildG_children_self g i c n hn

theorem removeChildG_children_self' (g : Graph) (i c : Nat)
    (h : i < g.size) :
    childrenOf (removeChildG g i c) i = (childrenOf g i).erase c := by
  obtain ⟨n, hn⟩ := get_isSome_of_lt g i h
  exact removeChildG_children_self g i c n hn

theorem spliceRewrite_size (g : Graph) (u v ar : Nat) (g' : Graph)
    (h : spliceRewrite g u v ar = some g') : g'.size = g.size + 1 := by
  simp only [spliceRewrite] at h
  split at h
  · split at h
    · exact absurd h (by simp)
    · injection h with h'
      rw [← h']
      simp only [addAncG_size, addChildG_size, push_size, removeAncG_size,
        removeChildG_size]
  · injection h with h'
    rw [← h']
    simp only [addAncG_size, addChildG_size, push_size, removeAncG_size,
      removeChildG_size]
  · exact absurd h (by simp)

theorem spliceRewrite_name (g : Graph) (u v ar : Nat) (g' : Graph)
    (h : spliceRewrite g u v ar = some g') (j : Nat) (hj : j < g.size) :
    nameOf g' j = nameOf g j := by
  simp only [spliceRewrite] at h
  split at h
  · split at h
    · exact absurd h (by simp)
    · injection h with h'
      rw [← h']
      simp only [addAncG_name, addChildG_name]
      rw [push_name_ne _ _ _
        (by simp only [removeAncG_size, removeChildG_size]; omega)]
      simp only [removeAncG_name, removeChildG_name]
  · injection h with h'
    rw [← h']
    simp only [addAncG_name, addChildG_name]
    rw [push_name_ne _ _ _
      (by simp only [removeAncG_size, removeChildG_size]; omega)]
    simp only [removeAncG_name, removeChildG_name]
  · exact absurd h (by simp)

theorem spliceRewrite_inner (g : Graph) (u v ar : Nat) (g' : Graph)
    (h : spliceRewrite g u v ar = some g') (j : Nat) (hj : j < g.size) :
    innerOf g' j = innerOf g j := by
  simp only [spliceRewrite] at h
  split at h
  · split at h
    · exact absurd h (by simp)
    · injection h with h'
      rw [← h']
      simp only [addAncG_inner, addChildG_inner]
      rw [push_inner_ne _ _ _
        (by simp only [removeAncG_size, removeChildG_size]; omega)]
      simp only [removeAncG_inner, removeChildG_inner]
  · injection h with h'
    rw [← h']
    simp only [addAncG_inner, addChildG_inner]
    rw [push_inner_ne _ _ _
      (by simp only [removeAncG_size, removeChildG_size]; omega)]
    simp only [removeAncG_inner, removeChildG_inner]
  · exact absurd h (by simp)

theorem spliceRewrite_anc_ne (g : Graph) (u v ar : Nat) (g' : Graph)
    (h : spliceRewrite g u v ar = some g') (j : Nat) (hj : j < g.size)
    (hju : j ≠ u) : ancOf g' j = ancOf g j := by
  simp only [spliceRewrite] at h
  split at h
  · split at h
    · exact absurd h (by simp)
    · injection h with h'
      rw [← h']
      rw [addAncG_anc_ne _ _ _ _ (fun e' => hju e'.symm)]
      rw [addChildG_anc, addChildG_anc]
      rw [push_anc_ne _ _ _
        (by simp only [removeAncG_size, removeChildG_size]; omega)]
      rw [removeAncG_anc_ne _ _ _ _ (fun e' => hju e'.symm)]
      rw [removeChildG_anc]
  · injection h with h'
    rw [← h']
    rw [addAncG_anc_ne _ _ _ _ (fun e' => hju e'.symm)]
    rw [addChildG_anc]
    rw [push_anc_ne _ _ _
      (by simp only [removeAncG_size, removeChildG_size]; omega)]
    rw [removeAncG_anc_ne _ _ _ _ (fun e' => hju e'.symm)]
    rw [removeChildG_anc]
  · exact absurd h (by simp)

theorem spliceRewrite_anc_u (g : Graph) (u v ar : Nat) (g' : Graph)
    (h : spliceRewrite g u v ar = some g') (hu : u < g.size) :
    ancOf g' u = ((ancOf g u).erase ar) ++ [g.size] := by
  have hsz2 : (removeAncG (removeChildG g ar u) u ar).size = g.size := by
    simp only [removeAncG_size, removeChildG_size]
  have hanc2 :
      ancOf (removeAncG (removeChildG g ar u) u ar) u =
        (ancOf g u).erase ar := by
    have hu1 : u < (removeChildG g ar u).size := by
      rw [removeChildG_size]; exact hu
    obtain ⟨n1, hn1⟩ := get_isSome_of_lt _ u hu1
    rw [removeAncG_anc_self _ u _ n1 hn1, removeChildG_anc]
  simp only [spliceRewrite] at h
  split at h
  · split at h
    · exact absurd h (by simp)
    · injection h with h'
      rw [← h']
      rw [addAncG_anc_self' _ u _
        (by simp only [addChildG_size, push_size, removeAncG_size,
          removeChildG_size]; omega)]
      rw [addChildG_anc, addChildG_anc]
      rw [push_anc_ne _ _ _ (by rw [hsz2]; omega)]
      rw [hanc2, hsz2]
  · injection h with h'
    rw [← h']
    rw [addAncG_anc_self' _ u _
      (by simp only [addChildG_size, push_size, removeAncG_size,
        removeChildG_size]; omega)]
    rw [addChildG_anc]
    rw [push_anc_ne _ _ _ (by rw [hsz2]; omega)]
    rw [hanc2, hsz2]
  · exact absurd h (by simp)

theorem spliceRewrite_fresh_inner (g : Graph) (u v ar : Nat) (g' : Graph)
    (h : spliceRewrite g u v ar = some g') :
    innerOf g' g.size = some (.Identity true) := by
  have hsz2 : (removeAncG (removeChildG g ar u) u ar).size = g.size := by
    simp only [removeAncG_size, removeChildG_size]
  simp only [spliceRewrite] at h
  split at h
  · split at h
    · exact absurd h (by simp)
    · injection h with h'
      rw [← h', ← hsz2]
      simp only [addAncG_inner, addChildG_inner]
      rw [push_inner_self]
  · injection h with h'
    rw [← h', ← hsz2]
    simp only [addAncG_inner, addChildG_inner]
    rw [push_inner_self]
  · exact absurd h (by simp)

theorem spliceRewrite_fresh_name (g : Graph) (u v ar : Nat) (g' : Graph)
    (h : spliceRewrite g u v ar = some g') :
    nameOf g' g.size = nameOf g ar ++ "_matid" := by
  have hsz2 : (removeAncG (removeChildG g ar u) u ar).size = g.size := by
    simp only [removeAncG_size, removeChildG_size]
  have hnm2 : nameOf (removeAncG (removeChildG g ar u) u ar) ar =
      nameOf g ar := by
    simp only [removeAncG_name, removeChildG_name]
  simp only [spliceRewrite] at h
  split at h
  · split at h
    · exact absurd h (by simp)
    · injection h with h'
      rw [← h', ← hsz2]
      simp only [addAncG_name, addChildG_name]
      rw [push_name_self, hnm2]
  · injection h with h'
    rw [← h', ← hsz2]
    simp only [addAncG_name, addChildG_name]
    rw [push_name_self, hnm2]
  · exact absurd h (by simp)

theorem strEnds_append (s t : String) : strEnds (s ++ t) t = true := by
  rw [strEnds]
  show (t.data.reverse.isPrefixOf (s ++ t).data.reverse) = true
  rw [String.data_append, List.reverse_append]
  rw [List.isPrefixOf_iff_prefix]
  exact List.prefix_append t.data.reverse s.data.reverse

theorem removeChildG_closed (g : Graph) (i c : Nat) (h : ClosedP g) :
    ClosedP (removeChildG g i c) := by
  intro j n hget
  rw [removeChildG_get] at hget
  have hsz : (removeChildG g i c).size = g.size := removeChildG_size g i c
  by_cases hij : i = j
  · rw [if_pos hij] at hget
    cases hg : g.get i with
    | none => rw [hg] at hget; exact absurd hget (by simp)
    | some n0 =>
      rw [hg] at hget
      simp only [Option.map_some', Option.some.injEq] at hget
      subst hget
      have h0 := h i n0 hg
      refine ⟨fun a ha => by rw [hsz]; exact h0.1 a ha,
        fun c' hc' => by rw [hsz]; exact h0.2.1 c' (List.erase_subset _ _ hc'),
        fun t ht => by rw [hsz]; exact h0.2.2 t ht⟩
  · rw [if_neg hij] at hget
    have h0 := h j n hget
    refine ⟨fun a ha => by rw [hsz]; exact h0.1 a ha,
      fun c' hc' => by rw [hsz]; exact h0.2.1 c' hc',
      fun t ht => by rw [hsz]; exact h0.2.2 t ht⟩

theorem removeAncG_closed (g : Graph) (i a : Nat) (h : ClosedP g) :
    ClosedP (removeAncG g i a) := by
  intro j n hget
  rw [removeAncG_get] at hget
  have hsz : (removeAncG g i a).size = g.size := removeAncG_size g i a
  by_cases hij : i = j
  · rw [if_pos hij] at hget
    cases hg : g.get i with
    | none => rw [hg] at hget; exact absurd hget (by simp)
    | some n0 =>
      rw [hg] at hget
      simp only [Option.map_some', Option.some.injEq] at hget
      subst hget
      have h0 := h i n0 hg
      refine ⟨fun a' ha' => by
          rw [hsz]; exact h0.1 a' (List.erase_subset _ _ ha'),
        fun c' hc' => by rw [hsz]; exact h0.2.1 c' hc',
        fun t ht => by rw [hsz]; exact h0.2.2 t ht⟩
  · rw [if_neg hij] at hget
    have h0 := h j n hget
    refine ⟨fun a' ha' => by rw [hsz]; exact h0.1 a' ha',
      fun c' hc' => by rw [hsz]; exact h0.2.1 c' hc',
      fun t ht => by rw [hsz]; exact h0.2.2 t ht⟩

theorem addChildG_closed (g : Graph) (i c : Nat) (h : ClosedP g)
    (hc : c < g.size) : ClosedP (addChildG g i c) := by
  intro j n hget
  rw [addChildG_get] at hget
  have hsz : (addChildG g i c).size = g.size := addChildG_size g i c
  by_cases hij : i = j
  · rw [if_pos hij] at hget
    cases hg : g.get i with
    | none => rw [hg] at hget; exact absurd hget (by simp)
    | some n0 =>
      rw [hg] at hget
      simp only [Option.map_some', Option.some.injEq] at hget
      subst hget
      have h0 := h i n0 hg
      refine ⟨fun a ha => by rw [hsz]; exact h0.1 a ha,
        fun c' hc' => ?_,
        fun t ht => by rw [hsz]; exact h0.2.2 t ht⟩
      rw [hsz]
      rcases List.mem_append.mp hc' with hm | hm
      · exact h0.2.1 c' hm
      · rw [List.mem_singleton.mp hm]; exact hc
  · rw [if_neg hij] at hget
    have h0 := h j n hget
    refine ⟨fun a ha => by rw [hsz]; exact h0.1 a ha,
      fun c' hc' => by rw [hsz]; exact h0.2.1 c' hc',
      fun t ht => by rw [hsz]; exact h0.2.2 t ht⟩

theorem addAncG_closed (g : Graph) (i a : Nat) (h : ClosedP g)
    (ha : a < g.size) : ClosedP (addAncG g i a) := by
  intro j n hget
  rw [addAncG_get] at hget
  have hsz : (addAncG g i a).size = g.size := addAncG_size g i a
  by_cases hij : i = j
  · rw [if_pos hij] at hget
    cases hg : g.get i with
    | none => rw [hg] at hget; exact absurd hget (by simp)
    | some n0 =>
      rw [hg] at hget
      simp only [Option.map_some', Option.some.injEq] at hget
      subst hget
      have h0 := h i n0 hg
      refine ⟨fun a' ha' => ?_,
        fun c' hc' => by rw [hsz]; exact h0.2.1 c' hc',
        fun t ht => by rw [hsz]; exact h0.2.2 t ht⟩
      rw [hsz]
      rcases List.mem_append.mp ha' with hm | hm
      · exact h0.1 a' hm
      · rw [List.mem_singleton.mp hm]; exact ha
  · rw [if_neg hij] at hget
    have h0 := h j n hget
    refine ⟨fun a' ha' => by rw [hsz]; exact h0.1 a' ha',
      fun c' hc' => by rw [hsz]; exact h0.2.1 c' hc',
      fun t ht => by rw [hsz]; exact h0.2.2 t ht⟩

theorem push_closed (g : Graph) (n : MirNode) (h : ClosedP g)
    (hanc : ∀ a ∈ n.ancestors, a < g.size + 1)
    (hch : ∀ c ∈ n.children, c < g.size + 1)
    (ht : ∀ t, n.inner = .Reuse t → t < g.size + 1) :
    ClosedP (g.push n) := by
  intro j m hget
  have hsz : (g.push n).size = g.size + 1 := push_size g n
  rcases Nat.lt_trichotomy j g.size with hlt | heq | hgt
  · rw [push_get_lt g n j hlt] at hget
    have h0 := h j m hget
    exact ⟨fun a ha => by rw [hsz]; exact Nat.lt_succ_of_lt (h0.1 a ha),
      fun c hc => by rw [hsz]; exact Nat.lt_succ_of_lt (h0.2.1 c hc),
      fun t htt => by rw [hsz]; exact Nat.lt_succ_of_lt (h0.2.2 t htt)⟩
  · subst heq
    rw [push_get_self g n] at hget
    cases hget
    exact ⟨fun a ha => by rw [hsz]; exact hanc a ha,
      fun c hc => by rw [hsz]; exact hch c hc,
      fun t htt => by rw [hsz]; exact ht t htt⟩
  · rw [push_get_gt g n j hgt] at hget
    exact absurd hget (by simp)

theorem spliceReuse_closed (g : Graph) (u v : Nat) (e : Nat × Nat)
    (h : ClosedP g) (hu : u < g.size) (har : e.1 < g.size)
    (hcr : e.2 < g.size) : ClosedP (spliceReuse g u v e) := by
  simp only [spliceReuse]
  have hsz2 : (removeAncG (removeChildG g e.1 u) u e.1).size = g.size := by
    simp only [removeAncG_size, removeChildG_size]
  have h2 : ClosedP (removeAncG (removeChildG g e.1 u) u e.1) :=
    removeAncG_closed _ u e.1 (removeChildG_closed g e.1 u h)
  have h3 : ClosedP ((removeAncG (removeChildG g e.1 u) u e.1).push
      { name := nameOf (removeAncG (removeChildG g e.1 u) u e.1) e.2,
        fromVersion := v,
        columns := colsOf (removeAncG (removeChildG g e.1 u) u e.1) e.2,
        inner := .Reuse e.2, ancestors := [], children := [],
        extraRef := [] }) := by
    apply push_closed _ _ h2
    · intro a ha; simp at ha
    · intro c hc; simp at hc
    · intro t ht
      simp only [MirNodeType.Reuse.injEq] at ht
      rw [← ht, hsz2]
      exact Nat.lt_succ_of_lt hcr
  have hs3 : ((removeAncG (removeChildG g e.1 u) u e.1).push
      { name := nameOf (removeAncG (removeChildG g e.1 u) u e.1) e.2,
        fromVersion := v,
        columns := colsOf (removeAncG (removeChildG g e.1 u) u e.1) e.2,
        inner := .Reuse e.2, ancestors := [], children := [],
        extraRef := [] }).size = g.size + 1 := by
    rw [push_size, hsz2]
  apply addAncG_closed
  · apply addChildG_closed
    · apply addAncG_closed
      · apply addChildG_closed
        · exact h3
        · rw [hs3, hsz2]
          omega
      · simp only [addChildG_size, hs3, hsz2]
        omega
    · simp only [addAncG_size, addChildG_size, hs3, hsz2]
      omega
  · simp only [addChildG_size, addAncG_size, hs3, hsz2]
    omega

theorem spliceRewrite_closed (g : Graph) (u v ar : Nat) (g' : Graph)
    (h : spliceRewrite g u v ar = some g') (hcl : ClosedP g)
    (hu : u < g.size) (har : ar < g.size) : ClosedP g' := by
  have hsz2 : (removeAncG (removeChildG g ar u) u ar).size = g.size := by
    simp only [removeAncG_size, removeChildG_size]
  have h2 : ClosedP (removeAncG (removeChildG g ar u) u ar) :=
    removeAncG_closed _ u ar (removeChildG_closed g ar u hcl)
  have h3 : ClosedP ((removeAncG (removeChildG g ar u) u ar).push
      { name := nameOf (removeAncG (removeChildG g ar u) u ar) ar ++ "_matid",
        fromVersion := v,
        columns := colsOf (removeAncG (removeChildG g ar u) u ar) ar,
        inner := .Identity true, ancestors := [ar], children := [u],
        extraRef := [] }) := by
    apply push_closed _ _ h2
    · intro a ha
      rw [List.mem_singleton.mp ha, hsz2]
      exact Nat.lt_succ_of_lt har
    · intro c hc
      rw [List.mem_singleton.mp hc, hsz2]
      exact Nat.lt_succ_of_lt hu
    · intro t ht; simp at ht
  simp only [spliceRewrite] at h
  split at h
  · split at h
    · exact absurd h (by simp)
    · injection h with h'
      rw [← h']
      apply addAncG_closed
      · apply addChildG_closed
        · apply addChildG_closed
          · exact h3
          · simp only [push_size, hsz2]
            omega
        · simp only [addChildG_size, push_size, hsz2]
          omega
      · simp only [addChildG_size, push_size, hsz2]
        omega
  · injection h with h'
    rw [← h']
    apply addAncG_closed
    · apply addChildG_closed
      · exact h3
      · simp only [push_size, hsz2]
        omega
    · simp only [addChildG_size, push_size, hsz2]
      omega
  · exact absurd h (by simp)

theorem reuseEntry_none_of_not_reuse (g : Graph) (fz ar : Nat)
    (arn : MirNode) (heq : g.get ar = some arn)
    (hni : ∀ t, arn.inner ≠ .Reuse t) : reuseEntry g fz ar = none := by
  rw [reuseEntry]
  simp only [innerOf, heq]
  cases hin : arn.inner with
  | Reuse t => exact absurd hin (hni t)
  | Aggregation => rfl
  | Base => rfl
  | TopK => rfl
  | Join => rfl
  | Project => rfl
  | Filter => rfl
  | Identity b => rfl
  | Leaf => rfl
  | Union => rfl

theorem reuseEntry_of_reuse (g : Graph) (fz ar : Nat) (arn : MirNode)
    (t : Nat) (heq : g.get ar = some arn) (hin : arn.inner = .Reuse t) :
    reuseEntry g fz ar =
      match checkReuseF g fz t with
      | some (some e) => some e
      | _ => none := by
  rw [reuseEntry]
  simp only [innerOf, heq, hin]

theorem classifyAnc_spec (g : Graph) (fz : Nat) :
    ∀ (l : List Nat) (ru : List (Nat × Nat)) (rw : List Nat),
      classifyAnc g fz l = some (ru, rw) →
      ru = l.filterMap
        (fun ar => (reuseEntry g fz ar).map (fun e => (ar, e)))
      ∧ rw = l.filter (fun ar => rewB g fz ar)
      ∧ ∀ ar ∈ l, reuseEntry g fz ar = none →
          (checkMatF g fz ar = .ok true ∨ checkMatF g fz ar = .ok false) := by
  intro l
  induction l with
  | nil =>
    intro ru rw h
    simp only [classifyAnc, Option.some.injEq, Prod.mk.injEq] at h
    exact ⟨h.1.symm, h.2.symm, fun ar har => absurd har (List.not_mem_nil ar)⟩
  | cons ar rest ih =>
    intro ru rw h
    simp only [classifyAnc] at h
    split at h
    · exact absurd h (by simp)
    · rename_i arn heq
      split at h
      · rename_i t hin
        split at h
        · exact absurd h (by simp)
        · rename_i e hcr
          split at h
          · rename_i ru' rw' hrest
            simp only [Option.some.injEq, Prod.mk.injEq] at h
            obtain ⟨hru, hrw⟩ := h
            obtain ⟨ihu, ihw, ihm⟩ := ih ru' rw' hrest
            have hre : reuseEntry g fz ar = some e := by
              rw [reuseEntry_of_reuse g fz ar arn t heq hin, hcr]
            refine ⟨?_, ?_, ?_⟩
            · rw [← hru, ihu]
              simp [List.filterMap_cons, hre]
            · rw [← hrw, ihw]
              have hrb : rewB g fz ar = false := by
                simp [rewB, hre]
              simp [List.filter_cons, hrb]
            · intro a2 ha2 hre2
              rcases List.mem_cons.mp ha2 with hh | hm
              · rw [hh] at hre2
                rw [hre2] at hre
                exact absurd hre (by simp)
              · exact ihm a2 hm hre2
          · exact absurd h (by simp)
        · rename_i hcr
          have hre : reuseEntry g fz ar = none := by
            rw [reuseEntry_of_reuse g fz ar arn t heq hin, hcr]
          split at h
          · rename_i hcm
            obtain ⟨ihu, ihw, ihm⟩ := ih ru rw h
            refine ⟨?_, ?_, ?_⟩
            · rw [ihu]
              simp [List.filterMap_cons, hre]
            · rw [ihw]
              have hrb : rewB g fz ar = false := by
                simp [rewB, hre, hcm]
              simp [List.filter_cons, hrb]
            · intro a2 ha2 hre2
              rcases List.mem_cons.mp ha2 with hh | hm
              · rw [hh]
                exact Or.inl hcm
              · exact ihm a2 hm hre2
          · rename_i hcm
            split at h
            · rename_i ru' rw' hrest
              simp only [Option.some.injEq, Prod.mk.injEq] at h
              obtain ⟨hru, hrw⟩ := h
              obtain ⟨ihu, ihw, ihm⟩ := ih ru' rw' hrest
              refine ⟨?_, ?_, ?_⟩
              · rw [← hru, ihu]
                simp [List.filterMap_cons, hre]
              · rw [← hrw, ihw]
                have hrb : rewB g fz ar = true := by
                  simp [rewB, hre, hcm]
                simp [List.filter_cons, hrb]
              · intro a2 ha2 hre2
                rcases List.mem_cons.mp ha2 with hh | hm
                · rw [hh]
                  exact Or.inr hcm
                · exact ihm a2 hm hre2
            · exact absurd h (by simp)
          · exact absurd h (by simp)
      · rename_i hni
        have hre : reuseEntry g fz ar = none := by
          apply reuseEntry_none_of_not_reuse g fz ar arn heq
          intro t ht
          exact hni t ht
        split at h
        · rename_i hcm
          obtain ⟨ihu, ihw, ihm⟩ := ih ru rw h
          refine ⟨?_, ?_, ?_⟩
          · rw [ihu]
            simp [List.filterMap_cons, hre]
          · rw [ihw]
            have hrb : rewB g fz ar = false := by
              simp [rewB, hre, hcm]
            simp [List.filter_cons, hrb]
          · intro a2 ha2 hre2
            rcases List.mem_cons.mp ha2 with hh | hm
            · rw [hh]
              exact Or.inl hcm
            · exact ihm a2 hm hre2
        · rename_i hcm
          split at h
          · rename_i ru' rw' hrest
            simp only [Option.some.injEq, Prod.mk.injEq] at h
            obtain ⟨hru, hrw⟩ := h
            obtain ⟨ihu, ihw, ihm⟩ := ih ru' rw' hrest
            refine ⟨?_, ?_, ?_⟩
            · rw [← hru, ihu]
              simp [List.filterMap_cons, hre]
            · rw [← hrw, ihw]
              have hrb : rewB g fz ar = true := by
                simp [rewB, hre, hcm]
              simp [List.filter_cons, hrb]
            · intro a2 ha2 hre2
              rcases List.mem_cons.mp ha2 with hh | hm
              · rw [hh]
                exact Or.inr hcm
              · exact ihm a2 hm hre2
          · exact absurd h (by simp)
        · exact absurd h (by simp)

theorem reuseDrain_nil (u v : Nat) (g : Graph) :
    reuseDrain u v g [] = g := rfl

theorem reuseDrain_cons (u v : Nat) (g : Graph) (e : Nat × Nat)
    (rest : List (Nat × Nat)) :
    reuseDrain u v g (e :: rest) =
      reuseDrain u v (spliceReuse g u v e) rest := rfl

theorem reuseDrain_facts (u v : Nat) :
    ∀ (ru : List (Nat × Nat)) (g : Graph),
      ClosedP g → u < g.size →
      (∀ e ∈ ru, e.1 < g.size ∧ e.2 < g.size) →
      ClosedP (reuseDrain u v g ru)
      ∧ g.size ≤ (reuseDrain u v g ru).size
      ∧ (∀ j, j < g.size → nameOf (reuseDrain u v g ru) j = nameOf g j)
      ∧ (∀ j, j < g.size → innerOf (reuseDrain u v g ru) j = innerOf g j)
      ∧ (∀ j, j < g.size → j ≠ u →
          ancOf (reuseDrain u v g ru) j = ancOf g j)
      ∧ (∀ x, x < g.size →
          (ancOf (reuseDrain u v g ru) u).count x =
            (ancOf g u).count x - (ru.map Prod.fst).count x)
      ∧ (∀ x, x ∈ ancOf (reuseDrain u v g ru) u → x ≥ g.size →
          ∃ e ∈ ru,
            innerOf (reuseDrain u v g ru) x = some (.Reuse e.2)) := by
  intro ru
  induction ru with
  | nil =>
    intro g hcl hu _
    rw [reuseDrain_nil]
    refine ⟨hcl, Nat.le_refl _, fun _ _ => rfl, fun _ _ => rfl,
      fun _ _ _ => rfl, fun x _ => by simp, fun x hx hge => ?_⟩
    obtain ⟨n, hn⟩ := get_isSome_of_lt g u hu
    have hin : x ∈ n.ancestors := by
      simp only [ancOf, hn] at hx
      exact hx
    have := (hcl u n hn).1 x hin
    omega
  | cons e rest ih =>
    intro g hcl hu hb
    rw [reuseDrain_cons]
    have he := hb e (List.mem_cons_self e rest)
    have hcl1 : ClosedP (spliceReuse g u v e) :=
      spliceReuse_closed g u v e hcl hu he.1 he.2
    have hsz1 : (spliceReuse g u v e).size = g.size + 1 :=
      spliceReuse_size g u v e
    have hu1 : u < (spliceReuse g u v e).size := by omega
    have hb1 : ∀ e' ∈ rest,
        e'.1 < (spliceReuse g u v e).size
        ∧ e'.2 < (spliceReuse g u v e).size := by
      intro e' he'
      have := hb e' (List.mem_cons_of_mem e he')
      omega
    obtain ⟨C, S, N, I, A, K, F⟩ := ih (spliceReuse g u v e) hcl1 hu1 hb1
    refine ⟨C, by omega, ?_, ?_, ?_, ?_, ?_⟩
    · intro j hj
      rw [N j (by omega), spliceReuse_name g u v e j hj]
    · intro j hj
      rw [I j (by omega), spliceReuse_inner g u v e j hj]
    · intro j hj hju
      rw [A j (by omega) hju, spliceReuse_anc_ne g u v e j hj hju]
    · intro x hx
      rw [K x (by omega), spliceReuse_anc_u g u v e hu]
      rw [List.count_append, List.count_erase]
      have hxs : ([g.size] : List Nat).count x = 0 :=
        List.count_eq_zero.mpr (by simp; omega)
      rw [hxs, List.map_cons, List.count_cons]
      omega
    · intro x hx hge
      by_cases hx1 : x ≥ (spliceReuse g u v e).size
      · obtain ⟨e', he', hinn⟩ := F x hx hx1
        exact ⟨e', List.mem_cons_of_mem e he', hinn⟩
      · have hxe : x = g.size := by omega
        refine ⟨e, List.mem_cons_self e rest, ?_⟩
        rw [hxe, I g.size (by omega), spliceReuse_fresh_inner g u v e]

theorem rewriteDrain_facts (u v : Nat) :
    ∀ (rw : List Nat) (g g' : Graph),
      rewriteDrain u v g rw = some g' →
      ClosedP g → u < g.size →
      (∀ ar ∈ rw, ar < g.size) →
      ClosedP g'
      ∧ g.size ≤ g'.size
      ∧ (∀ j, j < g.size → nameOf g' j = nameOf g j)
      ∧ (∀ j, j < g.size → innerOf g' j = innerOf g j)
      ∧ (∀ j, j < g.size → j ≠ u → ancOf g' j = ancOf g j)
      ∧ (∀ x, x < g.size →
          (ancOf g' u).count x = (ancOf g u).count x - rw.count x)
      ∧ (∀ x, x ∈ ancOf g' u → x ≥ g.size →
          innerOf g' x = some (.Identity true)
          ∧ strEnds (nameOf g' x) "_matid" = true) := by
  intro rw
  induction rw with
  | nil =>
    intro g g' h hcl hu _
    simp only [rewriteDrain, Option.some.injEq] at h
    subst h
    refine ⟨hcl, Nat.le_refl _, fun _ _ => rfl, fun _ _ => rfl,
      fun _ _ _ => rfl, fun x _ => by simp, fun x hx hge => ?_⟩
    obtain ⟨n, hn⟩ := get_isSome_of_lt g u hu
    have hin : x ∈ n.ancestors := by
      simp only [ancOf, hn] at hx
      exact hx
    have := (hcl u n hn).1 x hin
    omega
  | cons ar rest ih =>
    intro g g' h hcl hu hb
    have har : ar < g.size := hb ar (List.mem_cons_self ar rest)
    simp only [rewriteDrain] at h
    split at h
    · rename_i g1 hsp
      have hsz1 : g1.size = g.size + 1 :=
        spliceRewrite_size g u v ar g1 hsp
      have hcl1 : ClosedP g1 := spliceRewrite_closed g u v ar g1 hsp hcl hu har
      have hu1 : u < g1.size := by omega
      have hb1 : ∀ a ∈ rest, a < g1.size := by
        intro a ha
        have := hb a (List.mem_cons_of_mem ar ha)
        omega
      obtain ⟨C, S, N, I, A, K, F⟩ := ih g1 g' h hcl1 hu1 hb1
      refine ⟨C, by omega, ?_, ?_, ?_, ?_, ?_⟩
      · intro j hj
        rw [N j (by omega), spliceRewrite_name g u v ar g1 hsp j hj]
      · intro j hj
        rw [I j (by omega), spliceRewrite_inner g u v ar g1 hsp j hj]
      · intro j hj hju
        rw [A j (by omega) hju, spliceRewrite_anc_ne g u v ar g1 hsp j hj hju]
      · intro x hx
        rw [K x (by omega), spliceRewrite_anc_u g u v ar g1 hsp hu]
        rw [List.count_append, List.count_erase]
        have hxs : ([g.size] : List Nat).count x = 0 :=
          List.count_eq_zero.mpr (by simp; omega)
        rw [hxs, List.count_cons]
        omega
      · intro x hx hge
        by_cases hx1 : x ≥ g1.size
        · exact F x hx hx1
        · have hxe : x = g.size := by omega
          subst hxe
          constructor
          · rw [I g.size (by omega),
              spliceRewrite_fresh_inner g u v ar g1 hsp]
          · rw [N g.size (by omega),
              spliceRewrite_fresh_name g u v ar g1 hsp]
            exact strEnds_append (nameOf g ar) "_matid"
    · exact absurd h (by simp)

theorem reuseEntry_some_elim (g : Graph) (fz ar e2 : Nat)
    (h : reuseEntry g fz ar = some e2) :
    ∃ t, innerOf g ar = some (.Reuse t)
      ∧ checkReuseF g fz t = some (some e2) := by
  unfold reuseEntry at h
  split at h
  · rename_i t hin
    split at h
    · rename_i e hcr
      simp only [Option.some.injEq] at h
      exact ⟨t, hin, h ▸ hcr⟩
    · exact absurd h (by simp)
  · exact absurd h (by simp)

theorem count_fst_filterMap (f : Nat → Option Nat) (a : Nat) :
    ∀ l : List Nat,
      ((l.filterMap (fun ar => (f ar).map (fun e => (ar, e)))).map
        Prod.fst).count a =
      if f a = none then 0 else l.count a := by
  intro l
  induction l with
  | nil => simp
  | cons ar rest ih =>
    simp only [List.filterMap_cons]
    cases hf : f ar with
    | none =>
      simp only [Option.map_none']
      rw [ih, List.count_cons]
      by_cases ha : f a = none
      · simp [ha]
      · have hne : (ar == a) = false := by
          simp only [beq_eq_false_iff_ne, ne_eq]
          intro hh
          rw [hh] at hf
          exact ha hf
        simp [ha, hne]
    | some e =>
      simp only [Option.map_some']
      rw [List.map_cons, List.count_cons, ih]
      by_cases ha : f a = none
      · have hne : (ar == a) = false := by
          simp only [beq_eq_false_iff_ne, ne_eq]
          intro hh
          rw [hh] at hf
          rw [hf] at ha
          exact absurd ha (by simp)
        simp [ha, hne]
      · simp [ha, List.count_cons]

theorem isReuseToMatid_intro (g : Graph) (a t : Nat)
    (h1 : innerOf g a = some (.Reuse t)) (h2 : matidName g t = true) :
    isReuseToMatid g a = true := by
  unfold isReuseToMatid
  rw [h1]
  exact h2

/-- C1 (amended): local materialization coverage.  When the
materialization-insertion pass processes one security-union node `u` — on a
well-formed arena, with `u` not of a pass-through (`Project`/`Filter`) kind —
then immediately afterwards every immediate ancestor of `u` either satisfies
`check_materialized`, or is a materialized identity carrying the `_matid`
name marker, or is a `Reuse` node whose target carries the marker.  The
original claim asserts this of the final graph for all unions at once; it is
refuted by the counterexample, because an ancestor kept for satisfying
`check_materialized` can lose that status when a later union-processing step
splices a new node into its own ancestor chain. -/
theorem processUnion_compliant (g : Graph) (v u : Nat) (g' : Graph)
    (hcl : ClosedP g) (hu : u < g.size)
    (hpf1 : innerOf g u ≠ some .Project)
    (hpf2 : innerOf g u ≠ some .Filter)
    (h : processUnion g v u = some g') :
    ∀ a ∈ ancOf g' u, Compliant g' a := by
  unfold processUnion at h
  split at h
  · exact absurd h (by simp)
  · rename_i ru rw heqc
    obtain ⟨hru, hrw, hmem⟩ :=
      classifyAnc_spec g (g.size + 1) (ancOf g u) ru rw heqc
    obtain ⟨nu, hnu⟩ := get_isSome_of_lt g u hu
    have hancb : ∀ a ∈ ancOf g u, a < g.size := by
      intro a ha
      simp only [ancOf, hnu] at ha
      exact (hcl u nu hnu).1 a ha
    have hrub : ∀ e ∈ ru, e.1 < g.size ∧ e.2 < g.size := by
      intro e he
      rw [hru] at he
      obtain ⟨ar, har, hmap⟩ := List.mem_filterMap.mp he
      cases hre : reuseEntry g (g.size + 1) ar with
      | none => rw [hre] at hmap; exact absurd hmap (by simp)
      | some e2 =>
        rw [hre] at hmap
        simp only [Option.map_some', Option.some.injEq] at hmap
        obtain ⟨t, hin, hcr⟩ := reuseEntry_some_elim g (g.size + 1) ar e2 hre
        have har' : ar < g.size := hancb ar har
        have htl : t < g.size := by
          obtain ⟨na, hna⟩ := get_isSome_of_lt g ar har'
          have hna2 : na.inner = .Reuse t := by
            simp only [innerOf, hna, Option.some.injEq] at hin
            exact hin
          exact (hcl ar na hna).2.2 t hna2
        have he2 : e2 < g.size :=
          checkReuseF_lt g hcl (g.size + 1) t e2 htl hcr
        rw [← hmap]
        exact ⟨har', he2⟩
    have hrwb : ∀ ar ∈ rw, ar < g.size := by
      intro ar har
      rw [hrw] at har
      exact hancb ar (List.mem_filter.mp har).1
    obtain ⟨C1, S1, N1, I1, A1, K1, F1⟩ := reuseDrain_facts u v ru g hcl hu hrub
    have hu1 : u < (reuseDrain u v g ru).size := lt_of_lt_of_le hu S1
    have hrwb1 : ∀ ar ∈ rw, ar < (reuseDrain u v g ru).size :=
      fun ar har => lt_of_lt_of_le (hrwb ar har) S1
    obtain ⟨C2, S2, N2, I2, A2, K2, F2⟩ :=
      rewriteDrain_facts u v rw (reuseDrain u v g ru) g' h C1 hu1 hrwb1
    have hszle : g.size ≤ g'.size := le_trans S1 S2
    have Nc : ∀ j, j < g.size → nameOf g' j = nameOf g j := by
      intro j hj
      rw [N2 j (lt_of_lt_of_le hj S1), N1 j hj]
    have Ic : ∀ j, j < g.size → innerOf g' j = innerOf g j := by
      intro j hj
      rw [I2 j (lt_of_lt_of_le hj S1), I1 j hj]
    have Ac : ∀ j, j < g.size → j ≠ u → ancOf g' j = ancOf g j := by
      intro j hj hju
      rw [A2 j (lt_of_lt_of_le hj S1) hju, A1 j hj hju]
    have hagree : ∀ f i, i < g.size → checkMatF g' f i = checkMatF g f i := by
      apply checkMat_agree g g' hszle hcl Nc Ic
      intro j hj hjpf
      by_cases hju : j = u
      · subst hju
        cases hjpf with
        | inl hp => exact absurd hp hpf1
        | inr hp => exact absurd hp hpf2
      · exact Ac j hj hju
    intro a ha
    have hapos : 0 < (ancOf g' u).count a := List.count_pos_iff.mpr ha
    rcases Nat.lt_or_ge a g.size with halt | hage
    · have hk2 := K2 a (lt_of_lt_of_le halt S1)
      have hk1 := K1 a halt
      cases hre : reuseEntry g (g.size + 1) a with
      | some e2 =>
        have hcf : (ru.map Prod.fst).count a = (ancOf g u).count a := by
          rw [hru, count_fst_filterMap (reuseEntry g (g.size + 1)) a
            (ancOf g u)]
          simp [hre]
        omega
      | none =>
        have hag : a ∈ ancOf g u := by
          by_contra hno
          have hz : (ancOf g u).count a = 0 := List.count_eq_zero.mpr hno
          omega
        rcases hmem a hag hre with hct | hcf
        · left
          have h1 : checkMatF g' (g.size + 1) a = .ok true := by
            rw [hagree (g.size + 1) a halt]
            exact hct
          exact checkMat_fuel_mono g' (g.size + 1) a true h1 (g'.size + 1)
            (by omega)
        · have hrb : rewB g (g.size + 1) a = true := by
            simp [rewB, hre, hcf]
          have hcw : rw.count a = (ancOf g u).count a := by
            rw [hrw]
            exact List.count_filter hrb
          have hcf0 : (ru.map Prod.fst).count a = 0 := by
            rw [hru, count_fst_filterMap (reuseEntry g (g.size + 1)) a
              (ancOf g u)]
            simp [hre]
          omega
    · rcases Nat.lt_or_ge a (reuseDrain u v g ru).size with ha1 | ha2
      · have hmem1 : a ∈ ancOf (reuseDrain u v g ru) u := by
          have hk2 := K2 a ha1
          apply List.count_pos_iff.mp
          omega
        obtain ⟨e, he, hinn⟩ := F1 a hmem1 hage
        right
        right
        have hinn' : innerOf g' a = some (.Reuse e.2) := by
          rw [I2 a ha1]
          exact hinn
        have he2lt : e.2 < g.size := (hrub e he).2
        have hmt : matidName g e.2 = true := by
          rw [hru] at he
          obtain ⟨ar, har, hmap⟩ := List.mem_filterMap.mp he
          cases hre : reuseEntry g (g.size + 1) ar with
          | none => rw [hre] at hmap; exact absurd hmap (by simp)
          | some e2 =>
            rw [hre] at hmap
            simp only [Option.map_some', Option.some.injEq] at hmap
            obtain ⟨t, hin, hcr⟩ :=
              reuseEntry_some_elim g (g.size + 1) ar e2 hre
            have hm2 : matidName g e2 = true :=
              checkReuseF_matid g (g.size + 1) t e2 hcr
            rw [← hmap]
            exact hm2
        have hmt' : matidName g' e.2 = true := by
          show strEnds (nameOf g' e.2) "_matid" = true
          rw [Nc e.2 he2lt]
          exact hmt
        exact isReuseToMatid_intro g' a e.2 hinn' hmt'
      · obtain ⟨hid, hnm⟩ := F2 a ha ha2
        right
        left
        exact ⟨hid, hnm⟩

/-- C1 counterexample: on `covGraph` — a well-formed, edge-symmetric arena —
the pass completes, node 1 (`"spu_1"`) is a security union, and its sole
immediate ancestor, node 2, ends up satisfying none of the three compliance
cases: `check_materialized` answers false on it (its first ancestor is now a
`Reuse` of the `Leaf`-kind node `"c_matid"`), it is a `Project` (not an
identity), and it is not a `Reuse` node.  Node 2 was compliant when the union
was processed; its own later processing as a union-named node destroyed
that. -/
theorem matcov_global_cex :
    forceMaterializationAboveSecunion covGraph 0 0 30 = some covOut
    ∧ closedB covGraph = true
    ∧ symB covGraph = true
    ∧ strStarts (nameOf covOut 1) "spu_" = true
    ∧ ancOf covOut 1 = [2]
    ∧ ¬ Compliant covOut 2 := by
  decide

/-- Witness for the local materialization-coverage theorem: one
union-processing step on `secuDupGraph`. -/
theorem processUnion_compliant_witness :
    (ClosedP secuDupGraph ∧ 1 < secuDupGraph.size
      ∧ innerOf secuDupGraph 1 ≠ some .Project
      ∧ innerOf secuDupGraph 1 ≠ some .Filter
      ∧ processUnion secuDupGraph 0 1 = some puWitnessOut)
    ∧ ∀ a ∈ ancOf puWitnessOut 1, Compliant puWitnessOut a :=
  ⟨⟨closedB_closedP secuDupGraph (by decide), by decide, by decide,
      by decide, by decide⟩,
    processUnion_compliant secuDupGraph 0 1 puWitnessOut
      (closedB_closedP secuDupGraph (by decide)) (by decide) (by decide)
      (by decide) (by decide)⟩

theorem closed_children_count_zero (g : Graph) (hcl : ClosedP g)
    (i x : Nat) (hx : g.size ≤ x) : (childrenOf g i).count x = 0 := by
  apply List.count_eq_zero.mpr
  intro hmem
  cases hg : g.get i with
  | none => rw [childrenOf, hg] at hmem; simp at hmem
  | some n =>
    rw [childrenOf, hg] at hmem
    have := (hcl i n hg).2.1 x hmem
    omega

theorem closed_anc_count_zero (g : Graph) (hcl : ClosedP g)
    (j x : Nat) (hx : g.size ≤ x) : (ancOf g j).count x = 0 := by
  apply List.count_eq_zero.mpr
  intro hmem
  cases hg : g.get j with
  | none => rw [ancOf, hg] at hmem; simp at hmem
  | some n =>
    rw [ancOf, hg] at hmem
    have := (hcl j n hg).1 x hmem
    omega

theorem anc_empty_of_ge (g : Graph) (j : Nat) (hj : g.size ≤ j) :
    ancOf g j = [] := by
  rw [ancOf, (get_none_iff g j).mpr hj]

theorem children_empty_of_ge (g : Graph) (i : Nat) (hi : g.size ≤ i) :
    childrenOf g i = [] := by
  rw [childrenOf, (get_none_iff g i).mpr hi]

theorem count_erase_append_single (l : List Nat) (x y z : Nat) :
    ((l.erase y) ++ [z]).count x =
      l.count x - (if y == x then 1 else 0) + (if z == x then 1 else 0) := by
  rw [List.count_append, List.count_erase]
  by_cases hzx : z = x
  · subst hzx
    simp
  · have h1 : (z == x) = false := by simp [hzx]
    have h2 : List.count x [z] = 0 :=
      List.count_eq_zero.mpr (by simp; exact fun e => hzx e.symm)
    rw [h2, h1]
    simp

theorem symm_of_splice_chars (g g' : Graph) (u ar nid : Nat)
    (hsym : SymM g) (hcl : ClosedP g) (hu : u < g.size) (har : ar < g.size)
    (hnid : nid = g.size)
    (hch : ∀ i, childrenOf g' i =
      if i = nid then [u]
      else if i = ar then ((childrenOf g ar).erase u) ++ [nid]
      else childrenOf g i)
    (hanc : ∀ j, ancOf g' j =
      if j = nid then [ar]
      else if j = u then ((ancOf g u).erase ar) ++ [nid]
      else ancOf g j) : SymM g' := by
  intro i j
  rw [hch i, hanc j]
  subst hnid
  by_cases hi : i = g.size
  · rw [if_pos hi]
    by_cases hj : j = g.size
    · rw [if_pos hj, hi, hj]
      rw [List.count_eq_zero.mpr
          (show (g.size : Nat) ∉ [u] by simp; omega),
        List.count_eq_zero.mpr
          (show (g.size : Nat) ∉ [ar] by simp; omega)]
    · rw [if_neg hj]
      by_cases hju : j = u
      · rw [if_pos hju, hju, hi, count_erase_append_single,
          closed_anc_count_zero g hcl u g.size (Nat.le_refl _)]
        have h3 : (ar == g.size) = false := by simp; omega
        rw [h3]
        simp
      · rw [if_neg hju, hi,
          closed_anc_count_zero g hcl j g.size (Nat.le_refl _)]
        exact List.count_eq_zero.mpr (by simp; exact hju)
  · rw [if_neg hi]
    by_cases hiar : i = ar
    · rw [if_pos hiar]
      by_cases hj : j = g.size
      · rw [if_pos hj, hj, hiar, count_erase_append_single,
          closed_children_count_zero g hcl ar g.size (Nat.le_refl _)]
        have h2 : (u == g.size) = false := by simp; omega
        rw [h2]
        simp
      · rw [if_neg hj]
        by_cases hju : j = u
        · rw [if_pos hju, hju, hiar, count_erase_append_single,
            count_erase_append_single, hsym ar u]
          simp
          rw [if_neg (by omega), if_neg (by omega)]
        · rw [if_neg hju, count_erase_append_single, hiar, hsym ar j]
          have h2 : (u == j) = false := by
            simp only [beq_eq_false_iff_ne, ne_eq]
            exact fun e => hju e.symm
          have h3 : (g.size == j) = false := by simp; omega
          rw [h2, h3]
          simp
    · rw [if_neg hiar]
      by_cases hj : j = g.size
      · rw [if_pos hj, hj,
          closed_children_count_zero g hcl i g.size (Nat.le_refl _)]
        exact (List.count_eq_zero.mpr (by simp; exact hiar)).symm
      · rw [if_neg hj]
        by_cases hju : j = u
        · rw [if_pos hju, hju, count_erase_append_single, hsym i u]
          have h2 : (ar == i) = false := by
            simp only [beq_eq_false_iff_ne, ne_eq]
            exact fun e => hiar e.symm
          have h3 : (g.size == i) = false := by simp; omega
          rw [h2, h3]
          simp
        · rw [if_neg hju]
          exact hsym i j

theorem spliceReuse_children_fresh (g : Graph) (u v : Nat)
    (e : Nat × Nat) (har : e.1 < g.size) :
    childrenOf (spliceReuse g u v e) g.size = [u] := by
  have hsz2 : (removeAncG (removeChildG g e.1 u) u e.1).size = g.size := by
    simp only [removeAncG_size, removeChildG_size]
  simp only [spliceReuse]
  rw [addAncG_children, ← hsz2]
  rw [addChildG_children_self' _ _ _
    (by simp only [addAncG_size, addChildG_size, push_size]; omega)]
  rw [addAncG_children]
  rw [addChildG_children_ne _ _ _ _ (by rw [hsz2]; omega)]
  rw [push_children_self]
  simp

theorem spliceReuse_children_ar (g : Graph) (u v : Nat) (e : Nat × Nat)
    (har : e.1 < g.size) :
    childrenOf (spliceReuse g u v e) e.1 =
      ((childrenOf g e.1).erase u) ++ [g.size] := by
  have hsz2 : (removeAncG (removeChildG g e.1 u) u e.1).size = g.size := by
    simp only [removeAncG_size, removeChildG_size]
  simp only [spliceReuse]
  rw [addAncG_children]
  rw [addChildG_children_ne _ _ _ _ (by rw [hsz2]; omega)]
  rw [addAncG_children]
  rw [addChildG_children_self' _ _ _
    (by simp only [push_size, removeAncG_size, removeChildG_size]; omega)]
  rw [push_children_ne _ _ _ (by rw [hsz2]; omega)]
  rw [removeAncG_children]
  rw [removeChildG_children_self' _ _ _ har]
  rw [hsz2]

theorem spliceReuse_children_ne (g : Graph) (u v : Nat) (e : Nat × Nat)
    (j : Nat) (hj : j < g.size) (hja : j ≠ e.1) :
    childrenOf (spliceReuse g u v e) j = childrenOf g j := by
  have hsz2 : (removeAncG (removeChildG g e.1 u) u e.1).size = g.size := by
    simp only [removeAncG_size, removeChildG_size]
  simp only [spliceReuse]
  rw [addAncG_children]
  rw [addChildG_children_ne _ _ _ _ (by rw [hsz2]; omega)]
  rw [addAncG_children]
  rw [addChildG_children_ne _ _ _ _ (fun h => hja h.symm)]
  rw [push_children_ne _ _ _ (by rw [hsz2]; omega)]
  rw [removeAncG_children]
  rw [removeChildG_children_ne _ _ _ _ (fun h => hja h.symm)]

theorem spliceReuse_anc_fresh (g : Graph) (u v : Nat) (e : Nat × Nat)
    (hu : u < g.size) : ancOf (spliceReuse g u v e) g.size = [e.1] := by
  have hsz2 : (removeAncG (removeChildG g e.1 u) u e.1).size = g.size := by
    simp only [removeAncG_size, removeChildG_size]
  simp only [spliceReuse]
  rw [addAncG_anc_ne _ _ _ _ (by omega)]
  rw [addChildG_anc]
  rw [← hsz2]
  rw [addAncG_anc_self' _ _ _
    (by simp only [addChildG_size, push_size]; omega)]
  rw [addChildG_anc, push_anc_self]
  simp

theorem spliceReuse_children_char (g : Graph) (u v : Nat) (e : Nat × Nat)
    (har : e.1 < g.size) :
    ∀ i, childrenOf (spliceReuse g u v e) i =
      if i = g.size then [u]
      else if i = e.1 then ((childrenOf g e.1).erase u) ++ [g.size]
      else childrenOf g i := by
  intro i
  by_cases hi : i = g.size
  · rw [if_pos hi, hi, spliceReuse_children_fresh g u v e har]
  · rw [if_neg hi]
    by_cases hia : i = e.1
    · rw [if_pos hia, hia, spliceReuse_children_ar g u v e har]
    · rw [if_neg hia]
      rcases Nat.lt_or_ge i g.size with hlt | hge
      · exact spliceReuse_children_ne g u v e i hlt hia
      · rw [children_empty_of_ge _ i
          (by rw [spliceReuse_size]; omega),
          children_empty_of_ge g i hge]

theorem spliceReuse_anc_char (g : Graph) (u v : Nat) (e : Nat × Nat)
    (hu : u < g.size) :
    ∀ j, ancOf (spliceReuse g u v e) j =
      if j = g.size then [e.1]
      else if j = u then ((ancOf g u).erase e.1) ++ [g.size]
      else ancOf g j := by
  intro j
  by_cases hj : j = g.size
  · rw [if_pos hj, hj, spliceReuse_anc_fresh g u v e hu]
  · rw [if_neg hj]
    by_cases hju : j = u
    · rw [if_pos hju, hju, spliceReuse_anc_u g u v e hu]
    · rw [if_neg hju]
      rcases Nat.lt_or_ge j g.size with hlt | hge
      · exact spliceReuse_anc_ne g u v e j hlt hju
      · rw [anc_empty_of_ge _ j (by rw [spliceReuse_size]; omega),
          anc_empty_of_ge g j hge]

theorem spliceReuse_symm (g : Graph) (u v : Nat) (e : Nat × Nat)
    (hsym : SymM g) (hcl : ClosedP g) (hu : u < g.size)
    (har : e.1 < g.size) : SymM (spliceReuse g u v e) := by
  exact symm_of_splice_chars g (spliceReuse g u v e) u e.1 g.size hsym hcl
    hu har rfl (spliceReuse_children_char g u v e har)
    (spliceReuse_anc_char g u v e hu)

theorem spliceRewrite_children_char (g : Graph) (u v ar : Nat)
    (g' : Graph) (h : spliceRewrite g u v ar = some g') (har : ar < g.size)
    (hnr : ∀ t, innerOf g ar ≠ some (.Reuse t)) :
    ∀ i, childrenOf g' i =
      if i = g.size then [u]
      else if i = ar then ((childrenOf g ar).erase u) ++ [g.size]
      else childrenOf g i := by
  have hsz2 : (removeAncG (removeChildG g ar u) u ar).size = g.size := by
    simp only [removeAncG_size, removeChildG_size]
  have hinner2 : innerOf (removeAncG (removeChildG g ar u) u ar) ar =
      innerOf g ar := by
    simp only [removeAncG_inner, removeChildG_inner]
  simp only [spliceRewrite] at h
  split at h
  next t heq =>
    rw [hinner2] at heq
    exact absurd heq (hnr t)
  next k heq =>
    injection h with h2
    intro i
    by_cases hi : i = g.size
    · rw [if_pos hi, hi, ← h2, addAncG_children, ← hsz2,
        addChildG_children_ne _ _ _ _ (by rw [hsz2]; omega),
        push_children_self]
    · rw [if_neg hi]
      by_cases hia : i = ar
      · rw [if_pos hia, hia, ← h2, addAncG_children,
          addChildG_children_self' _ _ _
            (by simp only [push_size, removeAncG_size, removeChildG_size]
                omega),
          push_children_ne _ _ _ (by rw [hsz2]; omega),
          removeAncG_children,
          removeChildG_children_self' _ _ _ har, hsz2]
      · rw [if_neg hia]
        rcases Nat.lt_or_ge i g.size with hlt | hge
        · rw [← h2, addAncG_children,
            addChildG_children_ne _ _ _ _ (fun e2 => hia e2.symm),
            push_children_ne _ _ _ (by rw [hsz2]; omega),
            removeAncG_children,
            removeChildG_children_ne _ _ _ _ (fun e2 => hia e2.symm)]
        · have hgsz : g'.size = g.size + 1 := by
            rw [← h2]
            simp only [addAncG_size, addChildG_size, push_size,
              removeAncG_size, removeChildG_size]
          rw [children_empty_of_ge g' i (by omega),
            children_empty_of_ge g i hge]
  next heq =>
    rw [hinner2] at heq
    obtain ⟨n, hn⟩ := get_isSome_of_lt g ar har
    exact absurd heq (by simp [innerOf, hn])

theorem spliceRewrite_anc_fresh (g : Graph) (u v ar : Nat) (g' : Graph)
    (h : spliceRewrite g u v ar = some g') (hu : u < g.size) :
    ancOf g' g.size = [ar] := by
  have hsz2 : (removeAncG (removeChildG g ar u) u ar).size = g.size := by
    simp only [removeAncG_size, removeChildG_size]
  simp only [spliceRewrite] at h
  split at h
  next t heq =>
    by_cases hta : t = ar
    · rw [if_pos hta] at h
      exact absurd h (by simp)
    · rw [if_neg hta] at h
      injection h with h2
      rw [← h2, addAncG_anc_ne _ _ _ _ (by omega), addChildG_anc,
        addChildG_anc, ← hsz2, push_anc_self]
  next k heq =>
    injection h with h2
    rw [← h2, addAncG_anc_ne _ _ _ _ (by omega), addChildG_anc, ← hsz2,
      push_anc_self]
  next heq => exact absurd h (by simp)

theorem spliceRewrite_anc_char (g : Graph) (u v ar : Nat) (g' : Graph)
    (h : spliceRewrite g u v ar = some g') (hu : u < g.size) :
    ∀ j, ancOf g' j =
      if j = g.size then [ar]
      else if j = u then ((ancOf g u).erase ar) ++ [g.size]
      else ancOf g j := by
  intro j
  by_cases hj : j = g.size
  · rw [if_pos hj, hj, spliceRewrite_anc_fresh g u v ar g' h hu]
  · rw [if_neg hj]
    by_cases hju : j = u
    · rw [if_pos hju, hju, spliceRewrite_anc_u g u v ar g' h hu]
    · rw [if_neg hju]
      rcases Nat.lt_or_ge j g.size with hlt | hge
      · exact spliceRewrite_anc_ne g u v ar g' h j hlt hju
      · have hgsz : g'.size = g.size + 1 := spliceRewrite_size g u v ar g' h
        rw [anc_empty_of_ge g' j (by omega), anc_empty_of_ge g j hge]

theorem spliceRewrite_symm (g : Graph) (u v ar : Nat) (g' : Graph)
    (h : spliceRewrite g u v ar = some g') (hsym : SymM g) (hcl : ClosedP g)
    (hu : u < g.size) (har : ar < g.size)
    (hnr : ∀ t, innerOf g ar ≠ some (.Reuse t)) : SymM g' :=
  symm_of_splice_chars g g' u ar g.size hsym hcl hu har rfl
    (spliceRewrite_children_char g u v ar g' h har hnr)
    (spliceRewrite_anc_char g u v ar g' h hu)

theorem reuseDrain_symmP (u v : Nat) :
    ∀ (ru : List (Nat × Nat)) (g : Graph),
      ClosedP g → SymM g → u < g.size →
      (∀ e ∈ ru, e.1 < g.size ∧ e.2 < g.size) →
      SymM (reuseDrain u v g ru) := by
  intro ru
  induction ru with
  | nil =>
    intro g _ hsym _ _
    rw [reuseDrain_nil]
    exact hsym
  | cons e rest ih =>
    intro g hcl hsym hu hb
    rw [reuseDrain_cons]
    have he := hb e (by simp)
    apply ih
    · exact spliceReuse_closed g u v e hcl hu he.1 he.2
    · exact spliceReuse_symm g u v e hsym hcl hu he.1
    · rw [spliceReuse_size]
      omega
    · intro a ha
      have ha2 := hb a (by simp [ha])
      constructor <;> (rw [spliceReuse_size]; omega)

theorem rewriteDrain_symmP (u v : Nat) :
    ∀ (rw : List Nat) (g g' : Graph),
      rewriteDrain u v g rw = some g' →
      ClosedP g → SymM g → u < g.size →
      (∀ ar ∈ rw, ar < g.size ∧ ∀ t, innerOf g ar ≠ some (.Reuse t)) →
      SymM g' := by
  intro rw
  induction rw with
  | nil =>
    intro g g' h _ hsym _ _
    simp only [rewriteDrain, Option.some.injEq] at h
    exact h ▸ hsym
  | cons ar rest ih =>
    intro g g' h hcl hsym hu hb
    simp only [rewriteDrain] at h
    cases hs : spliceRewrite g u v ar with
    | none =>
      rw [hs] at h
      exact absurd h (by simp)
    | some g1 =>
      rw [hs] at h
      have har : ar < g.size := (hb ar (by simp)).1
      have hnr := (hb ar (by simp)).2
      have hsz1 : g1.size = g.size + 1 := spliceRewrite_size g u v ar g1 hs
      apply ih g1 g' h
      · exact spliceRewrite_closed g u v ar g1 hs hcl hu har
      · exact spliceRewrite_symm g u v ar g1 hs hsym hcl hu har hnr
      · omega
      · intro a ha
        have hb2 := hb a (by simp [ha])
        refine ⟨by omega, fun t => ?_⟩
        rw [spliceRewrite_inner g u v ar g1 hs a hb2.1]
        exact hb2.2 t

theorem isReuseB_false (g : Graph) (a : Nat) (h : isReuseB g a = false) :
    ∀ t, innerOf g a ≠ some (.Reuse t) := by
  intro t hc
  rw [isReuseB, hc] at h
  simp at h

theorem symB_symM (g : Graph) (hcl : ClosedP g) (h : symB g = true) :
    SymM g := by
  intro i j
  rcases Nat.lt_or_ge i g.size with hi | hi
  · rcases Nat.lt_or_ge j g.size with hj | hj
    · rw [symB, List.all_eq_true] at h
      have h1 := h i (List.mem_range.mpr hi)
      rw [List.all_eq_true] at h1
      have h2 := h1 j (List.mem_range.mpr hj)
      simpa using h2
    · rw [closed_children_count_zero g hcl i j hj, anc_empty_of_ge g j hj]
      simp
  · rw [children_empty_of_ge g i hi, closed_anc_count_zero g hcl j i hi]
    simp

/-- **C4** (amended).  The structural edits of the materialization-insertion
pass preserve counted edge symmetry — an edge appears in a parent's child
list exactly as often as in the child's ancestor list — for every
`to_reuse` splice and for every `to_rewrite` splice over a non-`Reuse`
ancestor: processing one security union preserves symmetry whenever no
ancestor drained to `to_rewrite` is itself a `Reuse` node.  The claim's own
"extra link" case is the exception, not an instance: splicing an identity
above a `Reuse` ancestor adds the fresh node to the target's child list
without the converse ancestor entry, refuted by the counterexample. -/
theorem processUnion_symmetry (g : Graph) (v u : Nat) (g' : Graph)
    (hcl : ClosedP g) (hsym : SymM g) (hu : u < g.size)
    (hnr : ∀ ar ∈ ancOf g u, rewB g (g.size + 1) ar = true →
      isReuseB g ar = false)
    (h : processUnion g v u = some g') : SymM g' := by
  unfold processUnion at h
  split at h
  · exact absurd h (by simp)
  · rename_i ru rw heqc
    obtain ⟨hru, hrw, hmem⟩ :=
      classifyAnc_spec g (g.size + 1) (ancOf g u) ru rw heqc
    obtain ⟨nu, hnu⟩ := get_isSome_of_lt g u hu
    have hancb : ∀ a ∈ ancOf g u, a < g.size := by
      intro a ha
      simp only [ancOf, hnu] at ha
      exact (hcl u nu hnu).1 a ha
    have hrub : ∀ e ∈ ru, e.1 < g.size ∧ e.2 < g.size := by
      intro e he
      rw [hru] at he
      obtain ⟨ar, har, hmap⟩ := List.mem_filterMap.mp he
      cases hre : reuseEntry g (g.size + 1) ar with
      | none => rw [hre] at hmap; exact absurd hmap (by simp)
      | some e2 =>
        rw [hre] at hmap
        simp only [Option.map_some', Option.some.injEq] at hmap
        obtain ⟨t, hin, hcr⟩ := reuseEntry_some_elim g (g.size + 1) ar e2 hre
        have har2 : ar < g.size := hancb ar har
        have htl : t < g.size := by
          obtain ⟨na, hna⟩ := get_isSome_of_lt g ar har2
          have hna2 : na.inner = .Reuse t := by
            simp only [innerOf, hna, Option.some.injEq] at hin
            exact hin
          exact (hcl ar na hna).2.2 t hna2
        have he2 : e2 < g.size :=
          checkReuseF_lt g hcl (g.size + 1) t e2 htl hcr
        rw [← hmap]
        exact ⟨har2, he2⟩
    have hrwb : ∀ ar ∈ rw, ar < g.size := by
      intro ar har
      rw [hrw] at har
      exact hancb ar (List.mem_filter.mp har).1
    obtain ⟨C1, S1, N1, I1, A1, K1, F1⟩ :=
      reuseDrain_facts u v ru g hcl hu hrub
    have hsym1 : SymM (reuseDrain u v g ru) :=
      reuseDrain_symmP u v ru g hcl hsym hu hrub
    have hu1 : u < (reuseDrain u v g ru).size := lt_of_lt_of_le hu S1
    apply rewriteDrain_symmP u v rw (reuseDrain u v g ru) g' h C1 hsym1 hu1
    intro ar har
    have harb : ar < g.size := hrwb ar har
    refine ⟨lt_of_lt_of_le harb S1, fun t => ?_⟩
    rw [I1 ar harb]
    rw [hrw] at har
    exact isReuseB_false g ar
      (hnr ar (List.mem_filter.mp har).1 (List.mem_filter.mp har).2) t

/-- **C4** is refuted on `symGraph`: the pass splices a materialized
identity (node 4) above the `Reuse` ancestor 2, and the extra link from the
`Reuse` target 3 to the identity is one-sided — node 4 enters node 3's
child list while node 3 never enters node 4's ancestor list. -/
theorem matsym_cex :
    closedB symGraph = true ∧ symB symGraph = true
    ∧ forceMaterializationAboveSecunion symGraph 0 0 30 = some symOut
    ∧ 4 ∈ childrenOf symOut 3 ∧ 3 ∉ ancOf symOut 4 := by
  decide

/-- Witness for the symmetry-preservation theorem: one union-processing
step on `secuDupGraph`, whose single drained ancestor is a plain identity
node. -/
theorem processUnion_symmetry_witness :
    (ClosedP secuDupGraph ∧ SymM secuDupGraph ∧ 1 < secuDupGraph.size
      ∧ processUnion secuDupGraph 0 1 = some puWitnessOut)
    ∧ SymM puWitnessOut :=
  ⟨⟨closedB_closedP secuDupGraph (by decide),
      symB_symM secuDupGraph (closedB_closedP secuDupGraph (by decide))
        (by decide),
      by decide, by decide⟩,
    processUnion_symmetry secuDupGraph 0 1 puWitnessOut
      (closedB_closedP secuDupGraph (by decide))
      (symB_symM secuDupGraph (closedB_closedP secuDupGraph (by decide))
        (by decide))
      (by decide) (by decide) (by decide)⟩

theorem closedP_extends {g g' : Graph} (hcl : ClosedP g)
    (h : Extends g g') : ClosedP g' := by
  intro j n hget
  cases hg : g.get j with
  | none => rw [extends_get_none h j hg] at hget; exact absurd hget (by simp)
  | some n0 =>
    rcases h.2 j n0 hg with ⟨l, hl⟩
    rw [hl] at hget
    injection hget with he
    obtain ⟨h1, h2, h3⟩ := hcl j n0 hg
    rw [← he]
    exact ⟨fun a ha => (h.1 ▸ h1 a ha : a < g'.size),
      fun c hc => (h.1 ▸ h2 c hc : c < g'.size),
      fun t ht => (h.1 ▸ h3 t ht : t < g'.size)⟩

theorem mem_colsOf_extends {g g' : Graph} (h : Extends g g') (j : Nat)
    (c : Column) (hc : c ∈ colsOf g j) : c ∈ colsOf g' j := by
  rcases extends_colsOf h j with ⟨l, hl⟩
  rw [hl]
  exact List.mem_append_left l hc

theorem hasColP_addCol (g : Graph) (b : Nat) (cb : Column)
    (hj : HasColP g b cb) :
    ∀ i c, HasColP (addColG g b cb) i c → HasColP g i c := by
  intro i c h
  induction h with
  | self i c hc =>
    by_cases hib : i = b
    · subst hib
      cases hg : g.get i with
      | none =>
        have hid : addColG g i cb = g := by unfold addColG; rw [hg]
        rw [hid] at hc
        exact .self i c hc
      | some n =>
        rw [colsOf, addColG_get_self g i cb n hg] at hc
        simp only at hc
        rcases List.mem_append.mp hc with hin | hin
        · exact .self i c (by rw [colsOf, hg]; exact hin)
        · rw [List.mem_singleton.mp hin]
          exact hj
    · rw [colsOf, addColG_get_ne g b i cb (fun e => hib e.symm)] at hc
      exact .self i c hc
  | up i a c ha _ ih =>
    rw [extends_ancOf (addColG_extends g b cb) i] at ha
    exact .up i a c ha ih

theorem justExt_hasColP {g g' : Graph} (h : JustExt g g') :
    ∀ i c, HasColP g' i c → HasColP g i c := by
  induction h with
  | refl => exact fun _ _ hc => hc
  | step gm a cb _ hcp ih =>
    exact fun i c hc => ih i c (hasColP_addCol gm a cb hcp i c hc)

theorem hasColF_false_just {g g' : Graph} (h : JustExt g g') (f a : Nat)
    (c : Column) (hf : hasColumnF g f a c = some false) :
    hasColumnF g' f a c = some false := by
  rcases (hasColF_mono g g' (justExt_extends h) f a c).2 hf with ht | hf'
  · exact absurd
      (justExt_hasColP h a c (hasColF_true_sound g' f a c ht))
      (hasColF_false_sound g f a c hf)
  · exact hf'

theorem ancReach_down {g g' : Graph} (h : Extends g g') :
    ∀ q N, AncReach g' q N → AncReach g q N := by
  intro q N hr
  induction hr with
  | refl i => exact .refl i
  | head i a j ha _ ih => exact .head i a j (extends_ancOf h i ▸ ha) ih

theorem ancReach_up {g g' : Graph} (h : Extends g g') :
    ∀ q N, AncReach g q N → AncReach g' q N := by
  intro q N hr
  induction hr with
  | refl i => exact .refl i
  | head i a j ha _ ih =>
    exact .head i a j ((extends_ancOf h i).symm ▸ ha) ih

theorem ancReach_root (g : Graph) (a N : Nat) (hroot : ancOf g a = [])
    (h : AncReach g a N) : N = a := by
  cases h with
  | refl => rfl
  | head _ a2 _ ha2 _ => rw [hroot] at ha2; exact absurd ha2 (by simp)

theorem ancReach_cases (g : Graph) (i N : Nat) (h : AncReach g i N) :
    N = i ∨ ∃ a ∈ ancOf g i, AncReach g a N := by
  cases h with
  | refl => exact Or.inl rfl
  | head _ a _ ha hr => exact Or.inr ⟨a, ha, hr⟩

theorem mem_needed_iff (g : Graph) (n : MirNode) (c : Column) :
    c ∈ neededColumns g n ↔
      c ∈ referencedColumns n ∧ ∀ a ∈ n.ancestors, c ∉ colsOf g a := by
  constructor
  · intro h
    rw [neededColumns, List.mem_filter] at h
    refine ⟨h.1, fun a ha hc => ?_⟩
    have h2 := h.2
    simp only [decide_eq_true_eq, List.any_eq_true, decide_eq_true_eq,
      not_exists, not_and] at h2
    exact h2 a ha c hc rfl
  · intro ⟨h1, h2⟩
    rw [neededColumns, List.mem_filter]
    refine ⟨h1, ?_⟩
    simp only [decide_eq_true_eq, List.any_eq_true, decide_eq_true_eq,
      not_exists, not_and]
    intro a ha ac hac he
    exact h2 a ha (he ▸ hac)

theorem neededColumns_mono {g g' : Graph} (h : Extends g g') (n : MirNode) :
    ∀ c ∈ neededColumns g' n, c ∈ neededColumns g n := by
  intro c hc
  rw [mem_needed_iff] at hc ⊢
  exact ⟨hc.1, fun a ha hmem =>
    hc.2 a ha (mem_colsOf_extends h a c hmem)⟩

theorem pushList_extends {g g' : Graph} (h : Extends g g') (i : Nat) :
    pushList g' i = pushList g i := by
  rw [pushList, pushList, extends_ancOf h i]
  exact List.filter_congr (fun a _ => by rw [extends_ancOf h a])

theorem colLoop_noop_intro (skip : Column → Bool) (s a : Nat) (g : Graph) :
    ∀ (cs : List Column) (found : List Column),
      (∀ c ∈ cs, skip c = true ∨ c ∈ found ∨
        hasColumnF g (g.size + 1) a c = some false) →
      colLoop skip s a g cs found = some (g, found) := by
  intro cs
  induction cs with
  | nil => intro found _; rfl
  | cons c cs ih =>
    intro found h
    by_cases hsk : skip c = true
    · simp only [colLoop]
      rw [if_pos hsk]
      exact ih found (fun c' hc' => h c' (by simp [hc']))
    · rcases h c (by simp) with h1 | h2 | h3
      · exact absurd h1 hsk
      · simp only [colLoop]
        rw [if_neg hsk, if_pos h2]
        exact ih found (fun c' hc' => h c' (by simp [hc']))
      · by_cases hcf : c ∈ found
        · simp only [colLoop]
          rw [if_neg hsk, if_pos hcf]
          exact ih found (fun c' hc' => h c' (by simp [hc']))
        · simp only [colLoop]
          rw [if_neg hsk, if_neg hcf, h3]
          exact ih found (fun c' hc' => h c' (by simp [hc']))

theorem ancLoop_noop_intro (skip : Column → Bool) (s : Nat)
    (needed : List Column) (g : Graph) :
    ∀ (as : List Nat) (pushes : List Nat),
      (∀ a ∈ as, ∃ an, g.get a = some an) →
      (∀ a ∈ as, (ancOf g a).isEmpty = false →
        ∀ c ∈ needed, skip c = true ∨
          hasColumnF g (g.size + 1) a c = some false) →
      ancLoop skip s needed g as [] pushes =
        some (g, pushes ++ as.filter (fun x => !(ancOf g x).isEmpty)) := by
  intro as
  induction as with
  | nil => intro pushes _ _; simp [ancLoop]
  | cons a as ih =>
    intro pushes hval h
    obtain ⟨an, han⟩ := hval a (by simp)
    have hanc : ancOf g a = an.ancestors := by rw [ancOf, han]
    simp only [ancLoop, han]
    cases hroot : an.ancestors.isEmpty with
    | true =>
      rw [if_pos rfl]
      rw [ih pushes (fun a' ha' => hval a' (by simp [ha']))
        (fun a' ha' => h a' (by simp [ha']))]
      have hfc : (a :: as).filter (fun x => !(ancOf g x).isEmpty) =
          as.filter (fun x => !(ancOf g x).isEmpty) := by
        rw [List.filter_cons]
        have hfa : (!(ancOf g a).isEmpty) = false := by
          rw [hanc, hroot]
          rfl
        rw [hfa]
        simp
      rw [hfc]
    | false =>
      rw [if_neg (by simp)]
      rw [colLoop_noop_intro skip s a g needed []
        (fun c hc => by
          rcases h a (by simp) (by rw [hanc, hroot]) c hc with h1 | h2
          · exact Or.inl h1
          · exact Or.inr (Or.inr h2))]
      show ancLoop skip s needed g as [] (pushes ++ [a]) =
        some (g, pushes ++ (a :: as).filter (fun x => !(ancOf g x).isEmpty))
      rw [ih (pushes ++ [a]) (fun a' ha' => hval a' (by simp [ha']))
        (fun a' ha' => h a' (by simp [ha']))]
      have hfc : (a :: as).filter (fun x => !(ancOf g x).isEmpty) =
          a :: as.filter (fun x => !(ancOf g x).isEmpty) := by
        rw [List.filter_cons]
        have hfa : (!(ancOf g a).isEmpty) = true := by
          rw [hanc, hroot]
          rfl
        rw [hfa]
        simp
      rw [hfc]
      simp

theorem stable_intro (m : Option TableMapping) (g : Graph) (i : Nat)
    (n : MirNode) (hget : g.get i = some n) (hcl : ClosedP g)
    (hsc : StableCond m g i) : stableNode m g i := by
  have hanc : ancOf g i = n.ancestors := by rw [ancOf, hget]
  have hval : ∀ a ∈ n.ancestors, ∃ an, g.get a = some an := by
    intro a ha
    exact get_isSome_of_lt g a ((hcl i n hget).1 a ha)
  have hneed : neededOf g i = neededColumns g n := by rw [neededOf, hget]
  show processNode g m i = some (g, pushList g i)
  cases m with
  | some mp =>
    have hpn : processNode g (some mp) i =
        ancLoop (mapSkip mp) i (neededColumns g n) g n.ancestors [] [] := by
      simp only [processNode, hget]
    rw [hpn]
    rw [ancLoop_noop_intro (mapSkip mp) i (neededColumns g n) g n.ancestors
      [] hval ?hc]
    case hc =>
      intro a ha hroot c hc
      by_cases hsk : mapSkip mp c = true
      · exact Or.inl hsk
      · refine Or.inr ?_
        have hskf : skipOf (some mp) c = false := by
          show mapSkip mp c = false
          revert hsk
          cases mapSkip mp c <;> simp
        exact hsc a (hanc ▸ ha) hroot c (hneed ▸ hc) hskf
    rw [pushList, hanc]
    simp
  | none =>
    have hpn : processNode g none i =
        ancLoop (fun _ => false) i (neededColumns g n) g n.ancestors [] [] := by
      simp only [processNode, hget]
    rw [hpn]
    rw [ancLoop_noop_intro (fun _ => false) i (neededColumns g n) g
      n.ancestors [] hval ?hc2]
    case hc2 =>
      intro a ha hroot c hc
      refine Or.inr ?_
      exact hsc a (hanc ▸ ha) hroot c (hneed ▸ hc) rfl
    rw [pushList, hanc]
    simp

theorem colLoop_run_facts (skip : Column → Bool) (s a : Nat) :
    ∀ (cs : List Column) (g : Graph) (found : List Column)
      (g₁ : Graph) (found₁ : List Column),
      colLoop skip s a g cs found = some (g₁, found₁) →
      JustExt g g₁
      ∧ (∀ c ∈ found, c ∈ found₁)
      ∧ (∀ c ∈ found₁, c ∈ found ∨ c ∈ colsOf g₁ a)
      ∧ (∀ c ∈ cs, skip c = true ∨ c ∈ found₁ ∨
          hasColumnF g₁ (g₁.size + 1) a c = some false)
      ∧ (∀ j, j ≠ a → g₁.get j = g.get j)
      ∧ g₁.get s = g.get s := by
  intro cs
  induction cs with
  | nil =>
    intro g found g₁ found₁ h
    simp only [colLoop, Option.some.injEq, Prod.mk.injEq] at h
    obtain ⟨h1, h2⟩ := h
    subst h1
    subst h2
    exact ⟨.refl, fun c hc => hc, fun c hc => Or.inl hc,
      fun c hc => absurd hc (List.not_mem_nil c), fun j _ => rfl, rfl⟩
  | cons c cs ih =>
    intro g found g₁ found₁ h
    simp only [colLoop] at h
    by_cases hsk : skip c = true
    · rw [if_pos hsk] at h
      obtain ⟨j1, f1, f2, f3, u1, u2⟩ := ih g found g₁ found₁ h
      refine ⟨j1, f1, f2, fun c' hc' => ?_, u1, u2⟩
      rcases List.mem_cons.mp hc' with he | hm
      · exact Or.inl (he ▸ hsk)
      · exact f3 c' hm
    · rw [if_neg hsk] at h
      by_cases hcf : c ∈ found
      · rw [if_pos hcf] at h
        obtain ⟨j1, f1, f2, f3, u1, u2⟩ := ih g found g₁ found₁ h
        refine ⟨j1, f1, f2, fun c' hc' => ?_, u1, u2⟩
        rcases List.mem_cons.mp hc' with he | hm
        · exact Or.inr (Or.inl (he ▸ f1 c hcf))
        · exact f3 c' hm
      · rw [if_neg hcf] at h
        cases hq : hasColumnF g (g.size + 1) a c with
        | none => rw [hq] at h; exact absurd h (by simp)
        | some b =>
          rw [hq] at h
          cases b with
          | false =>
            obtain ⟨j1, f1, f2, f3, u1, u2⟩ := ih g found g₁ found₁ h
            refine ⟨j1, f1, f2, fun c' hc' => ?_, u1, u2⟩
            rcases List.mem_cons.mp hc' with he | hm
            · subst he
              refine Or.inr (Or.inr ?_)
              have hsz : g₁.size = g.size :=
                (extends_size (justExt_extends j1)).symm
              rw [hsz]
              exact hasColF_false_just j1 (g.size + 1) a c' hq
            · exact f3 c' hm
          | true =>
            by_cases has : a = s
            · rw [if_pos has] at h
              exact absurd h (by simp)
            · rw [if_neg has] at h
              have hstep : JustExt g (addColG g a c) :=
                JustExt.step g a c .refl
                  (hasColF_true_sound g (g.size + 1) a c hq)
              obtain ⟨j1, f1, f2, f3, u1, u2⟩ :=
                ih (addColG g a c) (found ++ [c]) g₁ found₁ h
              refine ⟨justExt_trans hstep j1,
                fun c' hc' => f1 c' (List.mem_append_left _ hc'),
                ?_, ?_, ?_, ?_⟩
              · intro c' hc'
                rcases f2 c' hc' with hm | hcol
                · rcases List.mem_append.mp hm with hmf | hmc
                  · exact Or.inl hmf
                  · rw [List.mem_singleton.mp hmc]
                    refine Or.inr
                      (mem_colsOf_extends (justExt_extends j1) a c ?_)
                    cases hga : g.get a with
                    | none =>
                      simp only [hasColumnF, hga] at hq
                      exact absurd hq (by simp)
                    | some na =>
                      rw [colsOf, addColG_get_self g a c na hga]
                      simp
                · exact Or.inr hcol
              · intro c' hc'
                rcases List.mem_cons.mp hc' with he | hm
                · exact Or.inr (Or.inl
                    (he ▸ f1 c (List.mem_append_right _ (by simp))))
                · exact f3 c' hm
              · intro j hj
                rw [u1 j hj, addColG_get_ne g a j c (fun e => hj e.symm)]
              · rw [u2, addColG_get_ne g a s c has]

theorem ancLoop_run_facts (skip : Column → Bool) (s : Nat)
    (needed : List Column) (A : List Nat) :
    ∀ (as : List Nat) (g : Graph) (found : List Column) (pushes : List Nat)
      (g' : Graph) (ps : List Nat),
      ancLoop skip s needed g as found pushes = some (g', ps) →
      (∀ x ∈ as, x ∈ A) →
      (∀ c ∈ found, ∃ a2 ∈ A, c ∈ colsOf g a2) →
      JustExt g g'
      ∧ ps = pushes ++ as.filter (fun x => !(ancOf g x).isEmpty)
      ∧ (∀ j, j ∉ as.filter (fun x => !(ancOf g x).isEmpty) → j ≠ s →
          g'.get j = g.get j)
      ∧ g'.get s = g.get s
      ∧ (∀ c ∈ needed, ∀ x ∈ as, (ancOf g x).isEmpty = false →
          skip c = true
          ∨ (∃ a2 ∈ A, c ∈ colsOf g' a2)
          ∨ hasColumnF g' (g'.size + 1) x c = some false) := by
  intro as
  induction as with
  | nil =>
    intro g found pushes g' ps h _ _
    simp only [ancLoop, Option.some.injEq, Prod.mk.injEq] at h
    obtain ⟨h1, h2⟩ := h
    subst h1
    subst h2
    exact ⟨.refl, by simp, fun j _ _ => rfl, rfl,
      fun c _ x hx => absurd hx (List.not_mem_nil x)⟩
  | cons a as ih =>
    intro g found pushes g' ps h hA hfound
    simp only [ancLoop] at h
    split at h
    · exact absurd h (by simp)
    · rename_i an hga
      have hanc : ancOf g a = an.ancestors := by rw [ancOf, hga]
      split at h
      · rename_i hroot
        obtain ⟨j1, hps, hu, hus, hclau⟩ :=
          ih g found pushes g' ps h (fun x hx => hA x (by simp [hx])) hfound
        have hfa : (!(ancOf g a).isEmpty) = false := by
          rw [hanc, hroot]
          rfl
        refine ⟨j1, ?_, ?_, hus, ?_⟩
        · rw [hps, List.filter_cons, hfa]
          simp
        · intro j hj hjs
          refine hu j (fun hjf => hj ?_) hjs
          rw [List.filter_cons, hfa]
          simpa using hjf
        · intro c hc x hx hxroot
          rcases List.mem_cons.mp hx with he | hm
          · subst he
            rw [hanc, hroot] at hxroot
            exact absurd hxroot (by simp)
          · exact hclau c hc x hm hxroot
      · rename_i hroot
        split at h
        · exact absurd h (by simp)
        · rename_i g1 found1 hcol
          obtain ⟨cj, cf1, cf2, cf3, cu1, cu2⟩ :=
            colLoop_run_facts skip s a needed g found g1 found1 hcol
          have hext1 : Extends g g1 := justExt_extends cj
          have hfound1 : ∀ c ∈ found1, ∃ a2 ∈ A, c ∈ colsOf g1 a2 := by
            intro c hcf
            rcases cf2 c hcf with hmf | hmc
            · obtain ⟨a2, ha2, hca2⟩ := hfound c hmf
              exact ⟨a2, ha2, mem_colsOf_extends hext1 a2 c hca2⟩
            · exact ⟨a, hA a (by simp), hmc⟩
          obtain ⟨j1, hps, hu, hus, hclau⟩ :=
            ih g1 found1 (pushes ++ [a]) g' ps h
              (fun x hx => hA x (by simp [hx])) hfound1
          have hgext : Extends g1 g' := justExt_extends j1
          have hancg1 : ∀ x, ancOf g1 x = ancOf g x :=
            fun x => extends_ancOf hext1 x
          have hfilt : as.filter (fun x => !(ancOf g1 x).isEmpty) =
              as.filter (fun x => !(ancOf g x).isEmpty) :=
            List.filter_congr (fun x _ => by rw [hancg1 x])
          have hfa : (!(ancOf g a).isEmpty) = true := by
            rw [hanc]
            revert hroot
            cases an.ancestors.isEmpty <;> simp
          refine ⟨justExt_trans cj j1, ?_, ?_, ?_, ?_⟩
          · rw [hps, hfilt, List.filter_cons, hfa]
            simp
          · intro j hj hjs
            have hja : j ≠ a := by
              intro he
              refine hj ?_
              rw [he, List.filter_cons, hfa]
              simp
            rw [hu j (fun hjf => hj ?_) hjs, cu1 j hja]
            rw [List.filter_cons, hfa]
            rw [hfilt] at hjf
            simp [hjf]
          · rw [hus, cu2]
          · intro c hc x hx hxroot
            rcases List.mem_cons.mp hx with he | hm
            · subst he
              rcases cf3 c hc with h1 | h2 | h3
              · exact Or.inl h1
              · obtain ⟨a2, ha2, hca2⟩ := hfound1 c h2
                exact Or.inr (Or.inl
                  ⟨a2, ha2, mem_colsOf_extends hgext a2 c hca2⟩)
              · refine Or.inr (Or.inr ?_)
                have hsz : g'.size = g1.size := (extends_size hgext).symm
                rw [hsz]
                exact hasColF_false_just j1 (g1.size + 1) x c h3
            · have hxroot1 : (ancOf g1 x).isEmpty = false := by
                rw [hancg1 x]
                exact hxroot
              exact hclau c hc x hm hxroot1

theorem processNode_run_facts (m : Option TableMapping) (g : Graph)
    (i : Nat) (g' : Graph) (ps : List Nat)
    (h : processNode g m i = some (g', ps)) :
    JustExt g g'
    ∧ ps = pushList g i
    ∧ g'.get i = g.get i
    ∧ (∀ j, j ∉ pushList g i → g'.get j = g.get j)
    ∧ StableCond m g' i := by
  unfold processNode at h
  split at h
  · exact absurd h (by simp)
  · rename_i n hget
    have hanci : ancOf g i = n.ancestors := by rw [ancOf, hget]
    have hplf : pushList g i =
        n.ancestors.filter (fun x => !(ancOf g x).isEmpty) := by
      rw [pushList, hanci]
    split at h
    · rename_i mp
      obtain ⟨j1, hps, hu, hus, hclau⟩ :=
        ancLoop_run_facts (mapSkip mp) i (neededColumns g n) n.ancestors
          n.ancestors g [] [] g' ps h (fun x hx => hx)
          (fun c hc => absurd hc (List.not_mem_nil c))
      have hexts : Extends g g' := justExt_extends j1
      refine ⟨j1, by rw [hps, hplf]; simp, hus, ?_, ?_⟩
      · intro j hj
        by_cases hji : j = i
        · rw [hji]
          exact hus
        · refine hu j ?_ hji
          rw [hplf] at hj
          exact hj
      · intro a ha hroot c hc hskip
        have ha2 : a ∈ n.ancestors := by
          rw [extends_ancOf hexts i, hanci] at ha
          exact ha
        have hroot2 : (ancOf g a).isEmpty = false := by
          rw [← extends_ancOf hexts a]
          exact hroot
        have hcn : c ∈ neededColumns g' n := by
          rw [neededOf, hus, hget] at hc
          exact hc
        have hcg : c ∈ neededColumns g n := neededColumns_mono hexts n c hcn
        rcases hclau c hcg a ha2 hroot2 with h1 | h2 | h3
        · have h1q : skipOf (some mp) c = true := h1
          rw [hskip] at h1q
          exact absurd h1q (by simp)
        · obtain ⟨a2, ha2q, hca2⟩ := h2
          rw [mem_needed_iff] at hcn
          exact absurd hca2 (hcn.2 a2 ha2q)
        · exact h3
    · obtain ⟨j1, hps, hu, hus, hclau⟩ :=
        ancLoop_run_facts (fun _ => false) i (neededColumns g n) n.ancestors
          n.ancestors g [] [] g' ps h (fun x hx => hx)
          (fun c hc => absurd hc (List.not_mem_nil c))
      have hexts : Extends g g' := justExt_extends j1
      refine ⟨j1, by rw [hps, hplf]; simp, hus, ?_, ?_⟩
      · intro j hj
        by_cases hji : j = i
        · rw [hji]
          exact hus
        · refine hu j ?_ hji
          rw [hplf] at hj
          exact hj
      · intro a ha hroot c hc hskip
        have ha2 : a ∈ n.ancestors := by
          rw [extends_ancOf hexts i, hanci] at ha
          exact ha
        have hroot2 : (ancOf g a).isEmpty = false := by
          rw [← extends_ancOf hexts a]
          exact hroot
        have hcn : c ∈ neededColumns g' n := by
          rw [neededOf, hus, hget] at hc
          exact hc
        have hcg : c ∈ neededColumns g n := neededColumns_mono hexts n c hcn
        rcases hclau c hcg a ha2 hroot2 with h1 | h2 | h3
        · exact absurd h1 (by simp)
        · obtain ⟨a2, ha2q, hca2⟩ := h2
          rw [mem_needed_iff] at hcn
          exact absurd hca2 (hcn.2 a2 ha2q)
        · exact h3

theorem stableCond_preserved (m : Option TableMapping) (g g' : Graph)
    (N : Nat) (hje : JustExt g g') (hN : g'.get N = g.get N)
    (hsc : StableCond m g N) : StableCond m g' N := by
  have hexts : Extends g g' := justExt_extends hje
  intro a ha hroot c hc hskip
  have ha2 : a ∈ ancOf g N := by
    rw [← extends_ancOf hexts N]
    exact ha
  have hroot2 : (ancOf g a).isEmpty = false := by
    rw [← extends_ancOf hexts a]
    exact hroot
  have hc2 : c ∈ neededOf g N := by
    cases hg : g.get N with
    | none =>
      rw [neededOf, hN, hg] at hc
      exact absurd hc (by simp)
    | some n =>
      rw [neededOf, hN, hg] at hc
      rw [neededOf, hg]
      exact neededColumns_mono hexts n c hc
  have hf := hsc a ha2 hroot2 c hc2 hskip
  have hsz : g'.size = g.size := (extends_size hexts).symm
  rw [hsz]
  exact hasColF_false_just hje (g.size + 1) a c hf

theorem pullLoop_stabilizes (m : Option TableMapping) :
    ∀ (f : Nat) (g : Graph) (Q : List Nat) (gEnd : Graph),
      pullLoop m f g Q = .ok gEnd →
      ∀ N, ((∃ q ∈ Q, AncReach g q N) ∨ StableCond m g N) →
        StableCond m gEnd N := by
  intro f
  induction f with
  | zero =>
    intro g Q gEnd h N hN
    cases Q with
    | nil =>
      simp only [pullLoop, PullRes.ok.injEq] at h
      subst h
      rcases hN with ⟨q, hq, _⟩ | hs
      · exact absurd hq (List.not_mem_nil q)
      · exact hs
    | cons i rest => simp [pullLoop] at h
  | succ f ih =>
    intro g Q gEnd h N hN
    cases Q with
    | nil =>
      simp only [pullLoop, PullRes.ok.injEq] at h
      subst h
      rcases hN with ⟨q, hq, _⟩ | hs
      · exact absurd hq (List.not_mem_nil q)
      · exact hs
    | cons i rest =>
      simp only [pullLoop] at h
      split at h
      · exact absurd h (by simp)
      · rename_i g1 ps hproc
        obtain ⟨j1, hps, hgi, hu, hsci⟩ :=
          processNode_run_facts m g i g1 ps hproc
        have hexts : Extends g g1 := justExt_extends j1
        apply ih g1 (ps.reverse ++ rest) gEnd h N
        rcases hN with ⟨q, hq, hreach⟩ | hs
        · rcases List.mem_cons.mp hq with he | hqr
          · subst he
            rcases ancReach_cases g q N hreach with hNi | ⟨a, ha, hr⟩
            · exact Or.inr (hNi ▸ hsci)
            · cases hanc : ancOf g a with
              | nil =>
                have hNa : N = a := ancReach_root g a N hanc hr
                refine Or.inr ?_
                intro a' ha'
                rw [extends_ancOf hexts N, hNa, hanc] at ha'
                exact absurd ha' (List.not_mem_nil a')
              | cons b bs =>
                refine Or.inl ⟨a, ?_, ancReach_up hexts a N hr⟩
                refine List.mem_append.mpr (Or.inl ?_)
                rw [List.mem_reverse, hps, pushList, List.mem_filter]
                exact ⟨ha, by rw [hanc]; rfl⟩
          · exact Or.inl ⟨q, List.mem_append.mpr (Or.inr hqr),
              ancReach_up hexts q N hreach⟩
        · by_cases hNps : N ∈ pushList g i
          · refine Or.inl ⟨N, ?_, .refl N⟩
            exact List.mem_append.mpr
              (Or.inl (by rw [List.mem_reverse, hps]; exact hNps))
          · exact Or.inr (stableCond_preserved m g g1 N j1 (hu N hNps) hs)

theorem pullLoop_replay (m : Option TableMapping) :
    ∀ (f : Nat) (g : Graph) (Q : List Nat) (gEnd : Graph),
      pullLoop m f g Q = .ok gEnd → ClosedP gEnd →
      (∀ N, (∃ q ∈ Q, AncReach g q N) → StableCond m gEnd N) →
      pullLoop m f gEnd Q = .ok gEnd := by
  intro f
  induction f with
  | zero =>
    intro g Q gEnd h _ _
    cases Q with
    | nil => rfl
    | cons i rest => simp [pullLoop] at h
  | succ f ih =>
    intro g Q gEnd h hcl hstab
    cases Q with
    | nil => rfl
    | cons i rest =>
      simp only [pullLoop] at h
      split at h
      · exact absurd h (by simp)
      · rename_i g1 ps hproc
        obtain ⟨j1, hps, hgi, hu, hsci⟩ :=
          processNode_run_facts m g i g1 ps hproc
        have hext1 : Extends g g1 := justExt_extends j1
        have hextE : Extends g gEnd :=
          extends_trans hext1
            (justExt_extends
              (pullLoop_just m f g1 (ps.reverse ++ rest) gEnd h))
        have hgn : ∃ n, g.get i = some n := by
          unfold processNode at hproc
          split at hproc
          · exact absurd hproc (by simp)
          · rename_i n hget
            exact ⟨n, hget⟩
        obtain ⟨n, hget⟩ := hgn
        obtain ⟨l, hgetE⟩ := hextE.2 i n hget
        have hstabi : StableCond m gEnd i := hstab i ⟨i, by simp, .refl i⟩
        have hstep : processNode gEnd m i = some (gEnd, pushList gEnd i) :=
          stable_intro m gEnd i _ hgetE hcl hstabi
        show pullLoop m (f + 1) gEnd (i :: rest) = .ok gEnd
        simp only [pullLoop, hstep]
        have hpl : pushList gEnd i = ps := by
          rw [pushList_extends hextE i, hps]
        rw [hpl]
        apply ih g1 (ps.reverse ++ rest) gEnd h hcl
        intro N hN
        obtain ⟨q, hq, hreach⟩ := hN
        rcases List.mem_append.mp hq with hqp | hqr
        · rw [List.mem_reverse, hps, pushList, List.mem_filter] at hqp
          refine hstab N ⟨i, by simp, ?_⟩
          exact .head i q N hqp.1 (ancReach_down hext1 q N hreach)
        · exact hstab N ⟨q, by simp [hqr], ancReach_down hext1 q N hreach⟩

/-- **C6**.  The column-pull pass is idempotent: on a well-formed arena,
whatever table mapping and secure-mode flag are supplied, if
`pull_required_base_columns` completes then running it again on its output
returns that output unchanged — in particular every node's output-column
set is the same after two runs as after one.  The pass only performs
column appends justified by `has_column`, so a completed run leaves every
node reachable from the leaf with no remaining pullable column, and the
replay traverses the same work list making no writes. -/
theorem pull_idempotent (g : Graph) (leaf : Nat) (m : Option TableMapping)
    (sec : Bool) (fuel : Nat) (g₁ : Graph) (hcl : ClosedP g)
    (h : pullRequiredBaseColumns g leaf m sec fuel = .ok g₁) :
    pullRequiredBaseColumns g₁ leaf m sec fuel = .ok g₁ := by
  have hloop := pull_ok_loop g leaf m sec fuel g₁ h
  have hclE : ClosedP g₁ :=
    closedP_extends hcl (pull_ok_extends g leaf m sec fuel g₁ h)
  have hstab : ∀ N, (∃ q ∈ [leaf], AncReach g q N) → StableCond m g₁ N :=
    fun N hN => pullLoop_stabilizes m fuel g [leaf] g₁ hloop N (Or.inl hN)
  have hreplay := pullLoop_replay m fuel g [leaf] g₁ hloop hclE hstab
  unfold pullRequiredBaseColumns
  cases sec with
  | false => exact hreplay
  | true =>
    cases m with
    | some mp => exact hreplay
    | none =>
      unfold pullRequiredBaseColumns at h
      simp at h

/-- Witness for the idempotence theorem: the chain
`leaf ← filter (refs b) ← projection ← base {a, b}`, on which the first run
really pulls column `b` into the projection and the second run is the
identity. -/
theorem pull_idempotent_witness :
    (ClosedP pullChainGraph
      ∧ pullRequiredBaseColumns pullChainGraph 0 none false 20 =
          .ok pullChainOnce)
    ∧ pullRequiredBaseColumns pullChainOnce 0 none false 20 =
        .ok pullChainOnce
    ∧ pullChainOnce ≠ pullChainGraph :=
  ⟨⟨closedB_closedP pullChainGraph (by decide), by decide⟩,
    pull_idempotent pullChainGraph 0 none false 20 pullChainOnce
      (closedB_closedP pullChainGraph (by decide)) (by decide),
    by decide⟩

end MirRewrite
